import Mathlib

/-
Verification development for the cotton package manager (danielhuang/cotton).

The Rust sources under src/ are shallowly embedded as executable Lean
definitions: pure functions become Lean functions, the concurrent resolver
and the memoization cache become explicit state-passing worklist models
(their critical sections are serialized by a Mutex or a DashMap entry in the
source, so any concurrent execution linearizes into such a worklist trace),
fallible code returns Option or an explicit result type, and loops that the
source bounds only by data size take an explicit fuel argument, with fuel
sufficiency proved separately.

The semantic-version comparison and range matching live in the external
node_semver crate, which is not part of this repository; those two
definitions are modelled from the specification text and are marked as such.
-/

namespace Cotton

/-- Semantic version. Modelled from the spec (section 3 and 4.C): the source
stores versions in the external node_semver crate type, with a
major.minor.patch triple and an optional pre-release identifier list.
Build metadata is ignored (it never participates in ordering or matching).
Pre-release identifiers are abstracted as strings. -/
structure Version where
  major : Nat
  minor : Nat
  patch : Nat
  pre : List String
deriving DecidableEq, Repr

/-- Three-way comparison on naturals, written with decidable tests so that it
reduces in the kernel. -/
def cmpNat (a b : Nat) : Ordering :=
  if a < b then .lt else if b < a then .gt else .eq

/-- Three-way comparison on strings (used for pre-release identifiers).
The equality test comes first so that comparisons of equal strings reduce in
the kernel. -/
def cmpStr (a b : String) : Ordering :=
  if a = b then .eq else if a < b then .lt else .gt

/-- Lexicographic comparison of pre-release identifier lists, a missing
identifier comparing below a present one. -/
def cmpPreList : List String → List String → Ordering
  | [], [] => .eq
  | [], _ :: _ => .lt
  | _ :: _, [] => .gt
  | a :: as, b :: bs => (cmpStr a b).then (cmpPreList as bs)

/-- Pre-release field comparison: a stable version (empty list) is greater
than any pre-release on the same triple; two pre-releases compare
lexicographically. Modelled from the spec (section 4.F): pre-releases are
less than stables on the same triple. -/
def cmpPre : List String → List String → Ordering
  | [], [] => .eq
  | [], _ :: _ => .gt
  | _ :: _, [] => .lt
  | a :: as, b :: bs => cmpPreList (a :: as) (b :: bs)

/-- Semantic-version ordering: compare major, then minor, then patch, then the
pre-release field. Modelled from the spec (node_semver Ord instance). -/
def Version.compare (a b : Version) : Ordering :=
  (cmpNat a.major b.major).then ((cmpNat a.minor b.minor).then
    ((cmpNat a.patch b.patch).then (cmpPre a.pre b.pre)))

/-- Strict order on versions, as a boolean. -/
def Version.lt (a b : Version) : Bool :=
  Version.compare a b = Ordering.lt

/-- Non-strict order on versions, as a boolean. -/
def Version.leB (a b : Version) : Bool :=
  ¬ Version.compare a b = Ordering.gt

/-- node_semver is_prerelease: the pre-release identifier list is non-empty. -/
def Version.isPrerelease (v : Version) : Bool :=
  ¬ v.pre = []

/-- Lawfulness bundle for a three-way comparison: it identifies exactly the
equal pairs, it is antisymmetric under swap, and its strict part is
transitive. -/
structure CmpLaw {α : Type _} (cmp : α → α → Ordering) : Prop where
  eq_iff : ∀ a b, cmp a b = .eq ↔ a = b
  swap : ∀ a b, (cmp a b).swap = cmp b a
  lt_trans : ∀ a b c, cmp a b = .lt → cmp b c = .lt → cmp a c = .lt

/-- Semver range. Modelled from the spec (section 4.C): the source delegates
range matching to the external node_semver crate. The caret, tilde, exact and
star comparator forms cover every range the claims exercise; hyphen ranges and
disjunctions are not needed by any claim. -/
inductive Range where
  | caret (c : Version)
  | tilde (c : Version)
  | exact (c : Version)
  | star
deriving DecidableEq, Repr

/-- True when the two versions agree on the major.minor.patch triple. -/
def sameTriple (c v : Version) : Bool :=
  c.major = v.major ∧ c.minor = v.minor ∧ c.patch = v.patch

/-- Whether the range explicitly mentions a pre-release on the same triple as
the candidate version (the standard pre-release gate of semver matching).
Modelled from the spec (section 4.C). -/
def Range.mentionsPreAt : Range → Version → Bool
  | .caret c, v => (¬ c.pre = []) && sameTriple c v
  | .tilde c, v => (¬ c.pre = []) && sameTriple c v
  | .exact c, v => (¬ c.pre = []) && sameTriple c v
  | .star, _ => false

/-- Core comparator matching, pre-release gate aside. Modelled from the spec
(section 4.C): caret keeps the leftmost non-zero component fixed, tilde keeps
major and minor fixed, exact requires equality, star accepts everything. -/
def Range.matchesCore : Range → Version → Bool
  | .caret c, v =>
    Version.leB c v &&
      (if c.major ≠ 0 then decide (v.major = c.major)
       else if c.minor ≠ 0 then decide (v.major = 0 ∧ v.minor = c.minor)
       else sameTriple c v)
  | .tilde c, v => Version.leB c v && decide (v.major = c.major ∧ v.minor = c.minor)
  | .exact c, v => sameTriple c v && decide (v.pre = c.pre)
  | .star, _ => true

/-- Range satisfaction: the pre-release gate plus core matching. Modelled from
the spec (section 4.C): a pre-release version only satisfies a range that
explicitly mentions a pre-release on the same triple. -/
def Range.satisfies (r : Range) (v : Version) : Bool :=
  (v.pre.isEmpty || r.mentionsPreAt v) && r.matchesCore v

/-- Version specifier, following VersionSpecifier of src/util.rs: a semver
range, a prefixed (aliased) specifier, a direct tarball URL, or any other
string (a dist-tag). -/
inductive VersionSpecifier where
  | range (r : Range)
  | prefixed (pfx rest : String)
  | directUrl (url : String)
  | other (tag : String)
deriving DecidableEq, Repr

/-- VersionSpecifier.satisfies of src/util.rs lines 96-105: ranges defer to
semver matching, prefixed and direct-URL specifiers always satisfy, and the
Other (dist-tag) form never satisfies. -/
def VersionSpecifier.satisfies : VersionSpecifier → Version → Bool
  | .range r, v => r.satisfies v
  | .prefixed _ _, _ => true
  | .directUrl _, _ => true
  | .other _, _ => false

/-- True exactly on the Other (dist-tag) specifier form. -/
def VersionSpecifier.isOther : VersionSpecifier → Bool
  | .other _ => true
  | _ => false

/-- Package request, following DepReq (PackageSpecifier in src/package.rs):
a name, a version specifier, and an optional flag; equality over all three
fields. -/
structure DepReq where
  name : String
  version : VersionSpecifier
  optional : Bool
deriving DecidableEq, Repr

/-- True when the first character of the string is an exclamation mark,
mirroring starts_with of the Rust standard library on the pattern used by
PlatformMap. -/
def startsWithBang (s : String) : Bool :=
  match s.data with
  | '!' :: _ => true
  | _ => false

/-- strip_prefix for the exclamation-mark pattern: the rest of the string when
it starts with one, and none otherwise. -/
def stripBang (s : String) : Option String :=
  match s.data with
  | '!' :: rest => some (String.mk rest)
  | _ => none

/-- Platform constraint set, following PlatformMap of src/npm.rs: a set of
allow and deny tokens, a deny token carrying a leading exclamation mark. The
BTreeSet is modelled as its element list. -/
structure PlatformMap where
  tokens : List String
deriving DecidableEq, Repr

/-- PlatformMap.allowed of src/npm.rs lines 49-54: the tokens that do not
start with an exclamation mark. -/
def PlatformMap.allowed (m : PlatformMap) : List String :=
  m.tokens.filter (fun x => ¬ startsWithBang x = true)

/-- PlatformMap.blocked of src/npm.rs lines 56-58: the tokens that start with
an exclamation mark, with the mark stripped. -/
def PlatformMap.blocked (m : PlatformMap) : List String :=
  m.tokens.filterMap stripBang

/-- PlatformMap.is_empty of src/npm.rs. -/
def PlatformMap.isEmpty (m : PlatformMap) : Bool :=
  m.tokens.isEmpty

/-- PlatformMap.is_supported of src/npm.rs lines 64-70: an empty map supports
every platform; otherwise the platform must occur among the allowed tokens and
must not occur among the blocked ones. -/
def PlatformMap.isSupported (m : PlatformMap) (platform : String) : Bool :=
  if m.isEmpty then true
  else (m.allowed.any (fun o => o = platform)) &&
    ¬ (m.blocked.any (fun o => o = platform)) = true

/-- Bin field of a package manifest, following Bin of src/package.rs: either a
single command path or a map from command name to path. -/
inductive Bin where
  | single (path : String)
  | multi (entries : List (String × String))
deriving DecidableEq, Repr

/-- Resolved package metadata subset, following PackageInfo (Subpackage) of
src/package.rs: name, tarball URL, dependency maps, platform constraints, bin
field and scripts. The BTreeMaps are modelled as ordered association lists. -/
structure Subpackage where
  name : String
  tarball : String
  dependencies : List (String × VersionSpecifier)
  optionalDependencies : List (String × VersionSpecifier)
  os : PlatformMap
  cpu : PlatformMap
  bin : Option Bin
  scripts : List (String × String)
deriving DecidableEq, Repr

/-- PackageInfo.bins of src/package.rs lines 83-91: a multi bin map is taken
as is, a single bin path is keyed under the package name, no bin field gives
an empty map. -/
def Subpackage.bins (p : Subpackage) : List (String × String) :=
  match p.bin with
  | some (Bin.multi x) => x
  | some (Bin.single x) => [(p.name, x)]
  | none => []

/-- PackageInfo.iter of src/package.rs lines 93-102: the child requests from
dependencies chained with optional_dependencies, a request being optional when
its name is an optional-dependency key. -/
def Subpackage.iterReqs (p : Subpackage) : List DepReq :=
  (p.dependencies ++ p.optionalDependencies).map (fun nv =>
    { name := nv.1, version := nv.2,
      optional := p.optionalDependencies.any (fun q => q.1 = nv.1) })

/-- PackageInfo.supported of src/package.rs lines 104-106, with the ambient
node OS and CPU names passed explicitly. -/
def Subpackage.supported (p : Subpackage) (os cpu : String) : Bool :=
  p.os.isSupported os && p.cpu.isSupported cpu

/-- Pinned package with its resolved version, following VersionedSubpackage
(VersionedPackageInfo in src/package.rs). -/
structure VersionedSubpackage where
  package : Subpackage
  version : Version
deriving DecidableEq, Repr

/-- Pinned dependency, following Dependency of src/npm.rs: the stable identity
of an installable artifact. -/
structure Dependency where
  name : String
  version : Version
  tarball : String
  bins : List (String × String)
  scripts : List (String × String)
deriving DecidableEq, Repr

/-- Hoisted installation tree, following DependencyTree of src/npm.rs: a
pinned root and children keyed by local name. -/
inductive DependencyTree where
  | node (root : Dependency) (children : List (String × DependencyTree))

/-- Root accessor of a dependency tree. -/
def DependencyTree.root : DependencyTree → Dependency
  | .node r _ => r

/-- Children accessor of a dependency tree. -/
def DependencyTree.children : DependencyTree → List (String × DependencyTree)
  | .node _ c => c

/-- Registry metadata for one package name, following RegistryResponse of
src/npm.rs: dist-tags and an insertion-ordered version map. Dist-tag values
are modelled as already-parsed versions (the source parses the tag string with
Version::parse before use). -/
structure RegistryResponse where
  distTags : List (String × Version)
  versions : List (Version × Subpackage)
deriving DecidableEq, Repr

/-- A registry maps package names to their metadata documents; a missing name
models a fetch failure. -/
abbrev Registry : Type := List (String × RegistryResponse)

/-- First-match association-list lookup (the map lookups of the source; every
map in this development keeps its keys distinct). -/
def lookupA {α β : Type _} [DecidableEq α] (k : α) : List (α × β) → Option β
  | [] => none
  | p :: rest => if p.1 = k then some p.2 else lookupA k rest

/-- Insert-or-overwrite on an association list, mirroring HashMap::insert: a
present key keeps its position and changes its value, an absent key is
appended. -/
def insertA {α β : Type _} [DecidableEq α] : List (α × β) → α → β → List (α × β)
  | [], k, v => [(k, v)]
  | p :: rest, k, v => if p.1 = k then (k, v) :: rest else p :: insertA rest k v

/-- fetch_dep_single of src/npm.rs lines 112-149: a dist-tag request resolves
through dist_tags and must name an existing version; any other specifier picks
from the versions list stably sorted by the not-is_prerelease key (pre-release
entries first, insertion order kept within each class, which is exactly the
itertools sorted_by_key result for a boolean key) and takes the last sorted
entry whose version satisfies the specifier, mirroring rfind. -/
def fetchDepSingle (reg : Registry) (d : DepReq) : Option (Version × Subpackage) :=
  match lookupA d.name reg with
  | none => none
  | some res =>
    match d.version with
    | .other tag =>
      match lookupA tag res.distTags with
      | none => none
      | some ver =>
        match lookupA ver res.versions with
        | none => none
        | some pkg => some (ver, pkg)
    | _ =>
      (((res.versions.filter (fun p => p.1.isPrerelease)) ++
        (res.versions.filter (fun p => ¬ p.1.isPrerelease = true))).reverse.find?
          (fun p => d.version.satisfies p.1))

/-- The resolved graph, following Graph of src/resolve.rs: a map from request
to pinned package, modelled as an association list with distinct keys. -/
abbrev GraphL : Type := List (DepReq × VersionedSubpackage)

/-- Keys of a graph. -/
def graphKeys (g : GraphL) : List DepReq :=
  g.map (fun p => p.1)

/-- Values of a graph. -/
def graphValues (g : GraphL) : List VersionedSubpackage :=
  g.map (fun p => p.2)

/-- Graph::append of src/resolve.rs lines 27-100, as a sequential worklist.
The source seeds a DashMap with the existing entries, queues the root
requests, and each task resolves its request with fetch_dep_single, records
the pinned entry, and queues every child request, skipping requests that are
already present; the per-key insert-if-absent gate serializes any concurrent
execution into such a worklist order. The eager tarball download it spawns has
no effect on the graph and is omitted. Fuel bounds the loop; exhaustion and
fetch failure both give none. -/
def appendResolve (reg : Registry) : Nat → GraphL → List DepReq → Option GraphL
  | 0, _, _ => none
  | _ + 1, rel, [] => some rel
  | fuel + 1, rel, req :: rest =>
    if req ∈ graphKeys rel then appendResolve reg fuel rel rest
    else
      match fetchDepSingle reg req with
      | none => none
      | some (v, sub) =>
        appendResolve reg fuel (rel ++ [(req, ⟨sub, v⟩)]) (sub.iterReqs ++ rest)

/-- Errors of the tree-building pass, following the failure modes of
src/resolve.rs: missing graph entry, unsupported required platform, the
panicking is_optional index, and fuel exhaustion of the embedded loops. -/
inductive BuildErr where
  | fuelOut
  | missingDep
  | unsupported
  | missingOptionalFlag
deriving DecidableEq, Repr

/-- Result type of the tree-building pass. -/
inductive BuildRes (α : Type _) where
  | err (e : BuildErr)
  | ok (a : α)

/-- Graph.resolve_req of src/resolve.rs lines 102-116: plain map lookup, a
missing request being the lockfile-stale error. -/
def resolveReq (g : GraphL) (req : DepReq) : Option VersionedSubpackage :=
  lookupA req g

/-- Conversion of a pinned graph entry to the Dependency record, as
build_tree and build_trees of src/resolve.rs construct their roots. -/
def mkDependency (p : VersionedSubpackage) : Dependency :=
  { name := p.package.name, version := p.version, tarball := p.package.tarball,
    bins := p.package.bins, scripts := p.package.scripts }

/-- Sequential collection of child results: the first error wins, cut
subtrees (none) are dropped, kept subtrees stay in order. This is the loop
body of build_tree of src/resolve.rs lines 164-174 and the final flatten of
build_trees. -/
def collectChildren {α : Type _} : List (BuildRes (Option α)) → BuildRes (List α)
  | [] => .ok []
  | .err e :: _ => .err e
  | .ok none :: rest => collectChildren rest
  | .ok (some t) :: rest =>
    match collectChildren rest with
    | .err e => .err e
    | .ok ts => .ok (t :: ts)

/-- Graph.build_tree of src/resolve.rs lines 118-185: a package already on
the ancestor stack cuts the subtree (cycle, a verbose log in the source); an
unsupported package is skipped when optional and fatal otherwise; children
are the resolved child requests, skipping any whose (name, version) pair is
excluded (hoisted), each built with the parent pushed onto the stack. Fuel
decreases one level per recursion depth; sufficiency is proved separately. -/
def buildTree (g : GraphL) (os cpu : String) (exclude : List (String × Version)) :
    Nat → VersionedSubpackage → List VersionedSubpackage → Bool →
    BuildRes (Option DependencyTree)
  | 0, _, _, _ => .err .fuelOut
  | fuel + 1, pkg, stack, optional =>
    if pkg ∈ stack then .ok none
    else if pkg.package.supported os cpu then
      match collectChildren (pkg.package.iterReqs.map (fun dep =>
        match resolveReq g dep with
        | none => .err .missingDep
        | some p2 =>
          if (p2.package.name, p2.version) ∈ exclude then .ok none
          else buildTree g os cpu exclude fuel p2 (stack ++ [pkg]) dep.optional)) with
      | .err e => .err e
      | .ok deps =>
        .ok (some (.node (mkDependency pkg)
          (deps.map (fun t => (t.root.name, t)))))
    else if optional then .ok none
    else .err .unsupported

/-- Resolution of a block of child requests during the flattening walk of
build_trees (src/resolve.rs lines 202-211): each request resolves through the
graph, pairing the pinned package with the request optional flag. -/
def resolveChildren (g : GraphL) : List DepReq → BuildRes (List (VersionedSubpackage × Bool))
  | [] => .ok []
  | req :: rest =>
    match resolveReq g req with
    | none => .err .missingDep
    | some pkg =>
      match resolveChildren g rest with
      | .err e => .err e
      | .ok cs => .ok ((pkg, req.optional) :: cs)

/-- The reachability walk of build_trees (src/resolve.rs lines 198-211): a
queue-driven closure that pops the front of the edge, skips packages already
flattened, and otherwise records the package, notes the optional flag of each
child edge, and pushes the resolved children at the back. Fuel exhaustion is
an explicit error; a sufficient fuel is computed below and proved adequate. -/
def bfsFlat (g : GraphL) :
    Nat → List VersionedSubpackage → List (VersionedSubpackage × Bool) →
    List VersionedSubpackage →
    BuildRes (List VersionedSubpackage × List (VersionedSubpackage × Bool))
  | 0, _, _, _ => .err .fuelOut
  | _ + 1, flat, isOpt, [] => .ok (flat, isOpt)
  | fuel + 1, flat, isOpt, next :: rest =>
    if next ∈ flat then bfsFlat g fuel flat isOpt rest
    else
      match resolveChildren g next.package.iterReqs with
      | .err e => .err e
      | .ok cs =>
        bfsFlat g fuel (flat ++ [next])
          (cs.foldl (fun m c => insertA m c.1 c.2) isOpt)
          (rest ++ cs.map (fun c => c.1))

/-- One step of the hoisting fold of build_trees (src/resolve.rs lines
214-221): a flattened package replaces the current pick of its name exactly
when its version is strictly greater, and claims an unclaimed name. -/
def hoistStep (h : List (String × VersionedSubpackage)) (dep : VersionedSubpackage) :
    List (String × VersionedSubpackage) :=
  match lookupA dep.package.name h with
  | some prev => if prev.version.lt dep.version then insertA h dep.package.name dep else h
  | none => insertA h dep.package.name dep

/-- The hoisting fold of build_trees (src/resolve.rs lines 213-222): one pass
over the flattened packages keeping, per name, the entry with the greatest
version. -/
def hoistFold (flat : List VersionedSubpackage) : List (String × VersionedSubpackage) :=
  flat.foldl hoistStep []

/-- The root-request loop of build_trees (src/resolve.rs lines 192-196): each
root request resolves through the graph, is recorded under its request name,
and its pinned package is marked with the request optional flag. -/
def rootReqsAcc (g : GraphL) :
    List DepReq → List (String × VersionedSubpackage) → List (VersionedSubpackage × Bool) →
    BuildRes (List (String × VersionedSubpackage) × List (VersionedSubpackage × Bool))
  | [], reqs, isOpt => .ok (reqs, isOpt)
  | req :: rest, reqs, isOpt =>
    match resolveReq g req with
    | none => .err .missingDep
    | some pkg => rootReqsAcc g rest (insertA reqs req.name pkg) (insertA isOpt pkg req.optional)

/-- Maximum number of child requests over the graph values, used to bound the
reachability walk. -/
def maxChildCount (g : GraphL) : Nat :=
  g.foldl (fun acc p => Nat.max acc p.2.package.iterReqs.length) 0

/-- Fuel bound for the reachability walk, derived below from the worklist
measure. -/
def bfsFuel (g : GraphL) (edge0 : Nat) : Nat :=
  edge0 + ((graphValues g).dedup.length + 1) * (maxChildCount g + 1) + 1

/-- Fuel bound for the depth of build_tree: the ancestor stack holds distinct
graph values, so its depth never exceeds the number of distinct values. -/
def treeFuel (g : GraphL) : Nat :=
  (graphValues g).dedup.length + 1

/-- The hoisted map of build_trees (src/resolve.rs lines 213-226): the
per-name greatest flattened version, overwritten by the root picks. -/
def hoistedMap (reqs0 : List (String × VersionedSubpackage))
    (flat : List VersionedSubpackage) : List (String × VersionedSubpackage) :=
  reqs0.foldl (fun h p => insertA h p.1 p.2) (hoistFold flat)

/-- The final per-name request map of build_trees (src/resolve.rs lines
228-230): the root picks overwritten by every hoisted pick. -/
def finalReqs (reqs0 : List (String × VersionedSubpackage))
    (flat : List VersionedSubpackage) : List (String × VersionedSubpackage) :=
  (hoistedMap reqs0 flat).foldl (fun r p => insertA r p.1 p.2) reqs0

/-- The exclusion set of build_trees (src/resolve.rs lines 232-235): the
(name, version) pair of every hoisted pick. -/
def excludePairs (reqs0 : List (String × VersionedSubpackage))
    (flat : List VersionedSubpackage) : List (String × Version) :=
  (hoistedMap reqs0 flat).map (fun p => (p.1, p.2.version))

/-- Graph.build_trees of src/resolve.rs lines 187-244: resolve the root
requests keyed by request name; flatten the reachable packages with their
optional flags; hoist per name the greatest flattened version, then overwrite
with the root picks; merge the hoisted picks back into the request map; build
one tree per final entry with the hoisted (name, version) pairs excluded from
all children, and drop cut roots. -/
def buildTrees (g : GraphL) (os cpu : String) (roots : List DepReq) :
    BuildRes (List DependencyTree) :=
  match rootReqsAcc g roots [] [] with
  | .err e => .err e
  | .ok (reqs0, isOpt0) =>
    match bfsFlat g (bfsFuel g (reqs0.map (fun p => p.2)).length) [] isOpt0
        (reqs0.map (fun p => p.2)) with
    | .err e => .err e
    | .ok (flat, isOpt) =>
      collectChildren ((finalReqs reqs0 flat).map (fun p =>
        match lookupA p.2 isOpt with
        | none => .err .missingOptionalFlag
        | some opt => buildTree g os cpu (excludePairs reqs0 flat) (treeFuel g) p.2 [] opt))

/-- Project manifest, following Package (PackageMetadata in src/package.rs):
the three direct-dependency maps. Scripts and passthrough fields play no part
in any claim. -/
structure Package where
  dependencies : List (String × VersionSpecifier)
  devDependencies : List (String × VersionSpecifier)
  optionalDependencies : List (String × VersionSpecifier)
deriving DecidableEq, Repr

/-- iter_with_dev (iter_all in src/package.rs lines 179-191): dependencies,
then dev dependencies, then optional dependencies, a request being optional
when its name is an optional-dependency key. -/
def Package.iterWithDev (p : Package) : List DepReq :=
  (p.dependencies ++ p.devDependencies ++ p.optionalDependencies).map (fun nv =>
    { name := nv.1, version := nv.2,
      optional := p.optionalDependencies.any (fun q => q.1 = nv.1) })

/-- Install plan, following Plan of src/plan.rs: top-level trees keyed by
local name. -/
structure Plan where
  trees : List (String × DependencyTree)

/-- The root-version map collected by Plan::satisfies of src/plan.rs lines
53-57: the root name and version of every tree, later entries overwriting
earlier ones as in a HashMap collect. -/
def planRootVersions (plan : Plan) : List (String × Version) :=
  plan.trees.foldl (fun acc p => insertA acc p.2.root.name p.2.root.version) []

/-- Plan::satisfies of src/plan.rs lines 52-66 (body): every manifest request
must find its name in the collected root-version map with a Range specifier
whose range the recorded version satisfies; any other specifier form yields
false. -/
def Plan.satisfies (plan : Plan) (package : Package) : Bool :=
  let m := planRootVersions plan
  package.iterWithDev.all (fun req =>
    match lookupA req.name m with
    | some version =>
      match req.version with
      | .range r => r.satisfies version
      | _ => false
    | none => false)

/-- Path component, following std::path::Component as matched by
do_scoped_resolve of src/scoped_path.rs. The prefix component carries no data
the code inspects. -/
inductive PComp where
  | rootDir
  | curDir
  | parentDir
  | pfx
  | normal (s : String)
deriving DecidableEq, Repr

/-- Symlink target: an absolute or relative path as read by read_link. -/
structure SymTarget where
  absolute : Bool
  comps : List PComp
deriving DecidableEq, Repr

/-- Errors of the scoped path join, following src/scoped_path.rs: a path
prefix component, or more than 255 symlink expansions in one call. -/
inductive ScopedErr where
  | invalidPfx
  | tooManyLinks
deriving DecidableEq, Repr

/-- Result of the scoped path join. -/
inductive SRes (α : Type _) where
  | err (e : ScopedErr)
  | ok (a : α)
deriving DecidableEq, Repr

/-- Outcome of one inner pass of do_scoped_resolve: the final subpath, a
prefix error, or a restart with a new component list after a symlink
expansion. -/
inductive StepOut where
  | done (subpath : List String)
  | badPfx
  | restart (curr : List PComp)
deriving DecidableEq, Repr

/-- The inner component walk of do_scoped_resolve (src/scoped_path.rs lines
23-64). The filesystem is a symlink table keyed by the path of the entry
relative to the canonicalized root (the code always reads links at
root/subpath/name). Root and current-directory components are skipped, a
parent component pops the subpath (a no-op on the empty subpath), and a
normal component either extends the subpath or, when it names a symlink,
requests a restart on the spliced component list; an absolute link target
replaces the whole path, a relative one is spliced after the current
subpath. -/
def walkComps (fs : List String → Option SymTarget) :
    List PComp → List String → StepOut
  | [], subpath => .done subpath
  | c :: rest, subpath =>
    match c with
    | .pfx => .badPfx
    | .rootDir => walkComps fs rest subpath
    | .curDir => walkComps fs rest subpath
    | .parentDir => walkComps fs rest subpath.dropLast
    | .normal n =>
      match fs (subpath ++ [n]) with
      | none => walkComps fs rest (subpath ++ [n])
      | some v =>
        .restart ((if v.absolute then v.comps
          else (subpath.map PComp.normal) ++ v.comps) ++ rest)

/-- The restart loop of do_scoped_resolve (src/scoped_path.rs lines 19-67):
each symlink expansion restarts the walk on the spliced path with an empty
subpath, and the link budget counts down from 255; one more expansion is the
too-many-levels error. -/
def resolveLoop (fs : List String → Option SymTarget) :
    Nat → List PComp → SRes (List String)
  | linksLeft, comps =>
    match walkComps fs comps [] with
    | .done subpath => .ok subpath
    | .badPfx => .err .invalidPfx
    | .restart curr =>
      match linksLeft with
      | 0 => .err .tooManyLinks
      | n + 1 => resolveLoop fs n curr

/-- do_scoped_resolve of src/scoped_path.rs lines 11-68, with the canonical
root left implicit (the table is keyed relative to it) and the 255-expansion
budget of MAX_SYMLINK_DEPTH. -/
def doScopedResolve (fs : List String → Option SymTarget) (comps : List PComp) :
    SRes (List String) :=
  resolveLoop fs 255 comps

/-- scoped_join of src/scoped_path.rs lines 99-101: the resolved subpath
joined under the root. -/
def scopedJoin (root : List String) (fs : List String → Option SymTarget)
    (comps : List PComp) : SRes (List String) :=
  match doScopedResolve fs comps with
  | .err e => .err e
  | .ok subpath => .ok (root ++ subpath)

/-- State of the async memoization cache of src/cache.rs: the map from key to
the shared-future handle it was populated with (handles numbered in creation
order), and the log of loader invocations. The Mutex around the map
serializes every get, so a concurrent history is a sequence of atomic get
steps. -/
structure CacheState (κ : Type _) where
  entries : List (κ × Nat)
  nextHandle : Nat
  loaderRuns : List (κ × Nat)
deriving DecidableEq, Repr

/-- The empty cache. -/
def CacheState.init {κ : Type _} : CacheState κ :=
  { entries := [], nextHandle := 0, loaderRuns := [] }

/-- Cache::get of src/cache.rs lines 54-65 as one atomic step: under the lock,
a present key returns its existing shared handle; an absent key starts the
loader, inserts the fresh shared handle and returns it. Every caller that gets
the same handle awaits the same shared future and therefore observes the same
value. -/
def cacheGet {κ : Type _} [DecidableEq κ] (s : CacheState κ) (k : κ) :
    CacheState κ × Nat :=
  match lookupA k s.entries with
  | some h => (s, h)
  | none =>
    ({ entries := s.entries ++ [(k, s.nextHandle)],
       nextHandle := s.nextHandle + 1,
       loaderRuns := s.loaderRuns ++ [(k, s.nextHandle)] }, s.nextHandle)

/-- A history of get calls, returning the final state and the handle each call
observed, in order. -/
def cacheRun {κ : Type _} [DecidableEq κ] :
    CacheState κ → List κ → CacheState κ × List (κ × Nat)
  | s, [] => (s, [])
  | s, k :: rest =>
    let step := cacheGet s k
    let tail := cacheRun step.1 rest
    (tail.1, (k, step.2) :: tail.2)

/-- set_extension of the Rust standard library with the js extension, on one
path segment: an embedded dot after the first character marks an extension,
which is replaced; otherwise the extension is appended. -/
def setExtJsSeg (cs : List Char) : List Char :=
  if (cs.drop 1).contains '.' then
    ((cs.reverse.dropWhile (fun c => ¬ c = '.')).drop 1).reverse ++ ['.', 'j', 's']
  else cs ++ ['.', 'j', 's']

/-- PathBuf::set_extension with the js extension on a slash-separated path:
only the final segment is rewritten. -/
def setExtensionJs (p : String) : String :=
  match (p.data.splitOn '/').getLast? with
  | none => p
  | some last =>
    String.mk (List.intercalate ['/']
      ((p.data.splitOn '/').dropLast ++ [setExtJsSeg last]))

/-- The executable-shim block of install_package (src/plan.rs lines 238-261)
for a top-level package, as the list of created links: for every bin entry the
candidate target is dotdot/name/path; when that target is absent under
node_modules/.bin the js fallback rewrites its extension; a command containing
a slash is skipped, any other command yields the shim node_modules/.bin/cmd
pointing at the chosen target (the source first removes any pre-existing
file at that shim path). -/
def binShims (dep : Dependency) (existsAt : String → Bool) : List (String × String) :=
  dep.bins.filterMap (fun cp =>
    let rel := "../" ++ dep.name ++ "/" ++ cp.2
    let target := if existsAt ("node_modules/.bin/" ++ rel) then rel else setExtensionJs rel
    if cp.1.data.contains '/' then none
    else some ("node_modules/.bin/" ++ cp.1, target))

mutual

/-- Provenance predicate for built trees: the tree roots at the dependency
record of its package, and every child arises from a child request of that
package, resolved through the graph, not excluded by the hoisting choice,
keyed by its package name, and itself well-formed. This is the shape
build_tree of src/resolve.rs guarantees for every tree it returns. -/
def GoodTree (g : GraphL) (exclude : List (String × Version)) :
    VersionedSubpackage → DependencyTree → Prop
  | pkg, .node root children =>
    root = mkDependency pkg ∧ GoodChildren g exclude pkg children

/-- Child block of the provenance predicate, one conjunct per child entry. -/
def GoodChildren (g : GraphL) (exclude : List (String × Version))
    (pkg : VersionedSubpackage) : List (String × DependencyTree) → Prop
  | [] => True
  | c :: rest =>
    (∃ dep ∈ pkg.package.iterReqs, ∃ p2 : VersionedSubpackage,
      resolveReq g dep = some p2 ∧
      ¬ (p2.package.name, p2.version) ∈ exclude ∧
      c.1 = p2.package.name ∧ GoodTree g exclude p2 c.2) ∧
    GoodChildren g exclude pkg rest

end

/-- Reachability of a pinned package from the root requests through the
graph: the resolution of a root request is reachable, and so is the
resolution of any child request of a reachable package. This is the set the
flattening walk of build_trees enumerates. -/
inductive Reach (g : GraphL) (roots : List DepReq) :
    VersionedSubpackage → Prop where
  | root : ∀ (req : DepReq) (pkg : VersionedSubpackage), req ∈ roots →
      resolveReq g req = some pkg → Reach g roots pkg
  | child : ∀ (u : VersionedSubpackage) (dep : DepReq)
      (pkg : VersionedSubpackage), Reach g roots u →
      dep ∈ u.package.iterReqs → resolveReq g dep = some pkg →
      Reach g roots pkg

/-- Invariant of the hoisting fold after processing the packages of pre: keys
are distinct; each pick is a processed package of its own name and no
processed package of that name has a strictly greater version; and every
processed package's name has a pick. -/
def HoistInv (pre : List VersionedSubpackage)
    (h : List (String × VersionedSubpackage)) : Prop :=
  (h.map Prod.fst).Nodup ∧
  (∀ p ∈ h, p.2 ∈ pre ∧ p.2.package.name = p.1 ∧
    ∀ w ∈ pre, w.package.name = p.1 → p.2.version.lt w.version = false) ∧
  (∀ w ∈ pre, w.package.name ∈ h.map Prod.fst)

/-- Shorthand for a stable version. -/
def mkVer (a b c : Nat) : Version :=
  ⟨a, b, c, []⟩

/-- Shorthand for a pre-release version with one identifier. -/
def mkVerPre (a b c : Nat) (p : String) : Version :=
  ⟨a, b, c, [p]⟩

/-- A dependency-free package body used by the concrete examples. -/
def basePkg (n : String) : Subpackage :=
  { name := n, tarball := "tar", dependencies := [], optionalDependencies := [],
    os := ⟨[]⟩, cpu := ⟨[]⟩, bin := none, scripts := [] }

/-- Registry document with versions 1.0.0, 1.2.0, 1.2.0-beta, 2.0.0 in
ascending insertion order, for the version-pick example. -/
def resFour : RegistryResponse :=
  { distTags := [],
    versions := [(mkVer 1 0 0, basePkg "p"), (mkVer 1 2 0, basePkg "p"),
                 (mkVerPre 1 2 0 "beta", basePkg "p"),
                 (mkVer 2 0 0, basePkg "p")] }

/-- Registry serving that document under the name p. -/
def regFour : Registry :=
  [("p", resFour)]

/-- Registry document listing 1.2.0 before 1.0.0 (descending insertion
order). -/
def resDesc : RegistryResponse :=
  { distTags := [],
    versions := [(mkVer 1 2 0, basePkg "p"), (mkVer 1 0 0, basePkg "p")] }

/-- Registry serving the descending document under the name p. -/
def regDesc : Registry :=
  [("p", resDesc)]

/-- Request for the package p with the caret range on 1.0.0. -/
def reqCaret : DepReq :=
  ⟨"p", .range (.caret (mkVer 1 0 0)), false⟩

/-- Registry whose latest dist-tag names version 1.0.0. -/
def regTagged : Registry :=
  [("p", { distTags := [("latest", mkVer 1 0 0)],
           versions := [(mkVer 1 0 0, basePkg "p")] })]

/-- Request for the package p through the latest dist-tag. -/
def reqLatest : DepReq :=
  ⟨"p", .other "latest", false⟩

/-- A package body for the name a that depends on b. -/
def pkgDependingOnB : Subpackage :=
  { basePkg "a" with dependencies := [("b", .range .star)] }

/-- Star request for the name a. -/
def reqStarA : DepReq :=
  ⟨"a", .range .star, false⟩

/-- Star request for the name b. -/
def reqStarB : DepReq :=
  ⟨"b", .range .star, false⟩

/-- A graph whose only entry depends on b while b itself is absent, as a
stale lockfile would produce. -/
def staleGraph : GraphL :=
  [(reqStarA, ⟨pkgDependingOnB, mkVer 1 0 0⟩)]

/-- Registry where a (depending on b) and b are both available at 1.0.0. -/
def regChain : Registry :=
  [("a", { distTags := [], versions := [(mkVer 1 0 0, pkgDependingOnB)] }),
   ("b", { distTags := [], versions := [(mkVer 1 0 0, basePkg "b")] })]

/-- Package A of the two-package cycle: A depends on B. -/
def subCycA : Subpackage :=
  { basePkg "A" with dependencies := [("B", .range .star)] }

/-- Package B of the two-package cycle: B depends on A. -/
def subCycB : Subpackage :=
  { basePkg "B" with dependencies := [("A", .range .star)] }

/-- Star request for the name A. -/
def reqCycA : DepReq :=
  ⟨"A", .range .star, false⟩

/-- Star request for the name B. -/
def reqCycB : DepReq :=
  ⟨"B", .range .star, false⟩

/-- The cyclic graph A to B to A. -/
def gCycle : GraphL :=
  [(reqCycA, ⟨subCycA, mkVer 1 0 0⟩), (reqCycB, ⟨subCycB, mkVer 1 0 0⟩)]

/-- The forest build_trees returns on the cyclic graph with root request A:
two childless top-level trees, because B is hoisted and every hoisted (name,
version) pair is excluded from children. -/
def cycleTrees : List DependencyTree :=
  [.node (mkDependency ⟨subCycA, mkVer 1 0 0⟩) [],
   .node (mkDependency ⟨subCycB, mkVer 1 0 0⟩) []]

/-- A childless installed tree for the name a at version 1.0.0. -/
def treeA100 : DependencyTree :=
  .node ⟨"a", mkVer 1 0 0, "tar", [], []⟩ []

/-- A one-entry plan holding that tree. -/
def planOne : Plan :=
  ⟨[("a", treeA100)]⟩

/-- A manifest that declares its one direct dependency with an aliased (npm
prefixed) specifier. -/
def manifestAliased : Package :=
  ⟨[("a", .prefixed "npm" "x")], [], []⟩

/-- A filesystem with no symbolic links. -/
def fsEmpty : List String → Option SymTarget :=
  fun _ => none

/-- A filesystem where the entry a under the root is a symlink to itself. -/
def fsLoop : List String → Option SymTarget :=
  fun k => if k = ["a"] then some ⟨false, [.normal "a"]⟩ else none

/-- A pinned dependency exposing one bin command whose path carries a mjs
extension. -/
def depCliBin : Dependency :=
  ⟨"pkg", mkVer 1 0 0, "tar", [("cli", "cli.mjs")], []⟩

theorem cmpNat_law : CmpLaw cmpNat := by
  refine ⟨?_, ?_, ?_⟩
  · intro a b
    unfold cmpNat
    split_ifs with h1 h2 <;> simp <;> omega
  · intro a b
    unfold cmpNat
    rcases lt_trichotomy a b with h | h | h
    · have h2 : ¬ b < a := by omega
      simp [h, h2, Ordering.swap]
    · have h2 : ¬ a < b := by omega
      have h3 : ¬ b < a := by omega
      simp [h, h2, h3, Ordering.swap]
    · have h2 : ¬ a < b := by omega
      simp [h, h2, Ordering.swap]
  · intro a b c h1 h2
    unfold cmpNat at h1 h2 ⊢
    split_ifs at h1 h2 ⊢ <;> first | rfl | omega | simp_all

theorem cmpStr_law : CmpLaw cmpStr := by
  refine ⟨?_, ?_, ?_⟩
  · intro a b
    unfold cmpStr
    split_ifs with h1 h2 <;> simp [h1]
  · intro a b
    rcases eq_or_ne a b with h | h
    · subst h
      simp [cmpStr, Ordering.swap]
    · have hba : b ≠ a := fun hh => h hh.symm
      rcases lt_trichotomy a b with hl | he | hg
      · have h3 : ¬ b < a := asymm hl
        simp [cmpStr, h, hba, hl, h3, Ordering.swap]
      · exact absurd he h
      · have h3 : ¬ a < b := asymm hg
        simp [cmpStr, h, hba, hg, h3, Ordering.swap]
  · intro a b c h1 h2
    have hab : a < b := by
      by_contra hn
      unfold cmpStr at h1
      rcases eq_or_ne a b with he | hne
      · rw [if_pos he] at h1
        simp at h1
      · rw [if_neg hne, if_neg hn] at h1
        simp at h1
    have hbc : b < c := by
      by_contra hn
      unfold cmpStr at h2
      rcases eq_or_ne b c with he | hne
      · rw [if_pos he] at h2
        simp at h2
      · rw [if_neg hne, if_neg hn] at h2
        simp at h2
    have hac : a < c := lt_trans hab hbc
    unfold cmpStr
    rw [if_neg (ne_of_lt hac), if_pos hac]

theorem cmpPreList_law : CmpLaw cmpPreList := by
  refine ⟨?_, ?_, ?_⟩
  · intro a
    induction a with
    | nil =>
      intro b
      cases b <;> simp [cmpPreList]
    | cons x xs ih =>
      intro b
      cases b with
      | nil => simp [cmpPreList]
      | cons y ys =>
        simp only [cmpPreList]
        constructor
        · intro h
          cases hxy : cmpStr x y <;> rw [hxy] at h <;>
            simp [Ordering.then] at h
          have hx : x = y := (cmpStr_law.eq_iff x y).mp hxy
          have hxs : xs = ys := (ih ys).mp h
          rw [hx, hxs]
        · intro h
          injection h with hx hxs
          have ha : cmpStr x y = .eq := (cmpStr_law.eq_iff x y).mpr hx
          have hb : cmpPreList xs ys = .eq := (ih ys).mpr hxs
          simp [ha, hb, Ordering.then]
  · intro a
    induction a with
    | nil =>
      intro b
      cases b <;> simp [cmpPreList, Ordering.swap]
    | cons x xs ih =>
      intro b
      cases b with
      | nil => simp [cmpPreList, Ordering.swap]
      | cons y ys =>
        simp only [cmpPreList]
        have hs := cmpStr_law.swap x y
        cases hxy : cmpStr x y <;> rw [hxy] at hs
        · rw [← hs]
          simp [Ordering.then, Ordering.swap]
        · rw [← hs]
          simp only [Ordering.then, Ordering.swap]
          exact ih ys
        · rw [← hs]
          simp [Ordering.then, Ordering.swap]
  · intro a
    induction a with
    | nil =>
      intro b c h1 h2
      cases b <;> cases c <;> simp_all [cmpPreList]
    | cons x xs ih =>
      intro b c h1 h2
      cases b with
      | nil => simp [cmpPreList] at h1
      | cons y ys =>
        cases c with
        | nil => simp [cmpPreList] at h2
        | cons z zs =>
          simp only [cmpPreList] at h1 h2 ⊢
          cases hxy : cmpStr x y <;> rw [hxy] at h1 <;>
            simp [Ordering.then] at h1
          · -- head strictly increases from x to y
            cases hyz : cmpStr y z <;> rw [hyz] at h2 <;>
              simp [Ordering.then] at h2
            · have hlt : cmpStr x z = .lt := cmpStr_law.lt_trans x y z hxy hyz
              simp [hlt, Ordering.then]
            · have hy : y = z := (cmpStr_law.eq_iff y z).mp hyz
              have hlt : cmpStr x z = .lt := hy ▸ hxy
              simp [hlt, Ordering.then]
          · -- heads equal
            have hx : x = y := (cmpStr_law.eq_iff x y).mp hxy
            subst hx
            cases hyz : cmpStr x z <;> rw [hyz] at h2 <;>
              simp [Ordering.then] at h2
            · simp [hyz, Ordering.then]
            · have htl := ih ys zs h1 h2
              simp [hyz, Ordering.then, htl]

theorem cmpPre_law : CmpLaw cmpPre := by
  refine ⟨?_, ?_, ?_⟩
  · intro a b
    cases a <;> cases b <;> simp [cmpPre, cmpPreList_law.eq_iff]
  · intro a b
    cases a <;> cases b
    · rfl
    · rfl
    · rfl
    · exact cmpPreList_law.swap _ _
  · intro a b c h1 h2
    cases a <;> cases b <;> cases c <;> simp_all only [cmpPre] <;>
      first
        | (exact cmpPreList_law.lt_trans _ _ _ h1 h2)
        | rfl
        | simp_all

/-- Lexicographic combination of two comparisons on a pair. -/
def cmpProd {α β : Type _} (c1 : α → α → Ordering) (c2 : β → β → Ordering)
    (x y : α × β) : Ordering :=
  (c1 x.1 y.1).then (c2 x.2 y.2)

theorem cmpProd_law {α β : Type _} {c1 : α → α → Ordering}
    {c2 : β → β → Ordering} (h1 : CmpLaw c1) (h2 : CmpLaw c2) :
    CmpLaw (cmpProd c1 c2) := by
  constructor
  · intro a b
    unfold cmpProd
    constructor
    · intro h
      have hx : c1 a.1 b.1 = .eq ∧ c2 a.2 b.2 = .eq := by
        cases hc : c1 a.1 b.1 <;> rw [hc] at h <;> simp [Ordering.then] at h <;>
          simp_all
      obtain ⟨ha, hb⟩ := hx
      have e1 := (h1.eq_iff _ _).mp ha
      have e2 := (h2.eq_iff _ _).mp hb
      exact Prod.ext e1 e2
    · intro h
      subst h
      have e1 := (h1.eq_iff a.1 a.1).mpr rfl
      have e2 := (h2.eq_iff a.2 a.2).mpr rfl
      simp [e1, e2, Ordering.then]
  · intro a b
    unfold cmpProd
    have hs1 := h1.swap a.1 b.1
    cases hc : c1 a.1 b.1 <;> rw [hc] at hs1
    · rw [← hs1]
      simp [Ordering.then, Ordering.swap]
    · rw [← hs1]
      simp only [Ordering.then, Ordering.swap]
      exact h2.swap a.2 b.2
    · rw [← hs1]
      simp [Ordering.then, Ordering.swap]
  · intro a b c ha hb
    unfold cmpProd at ha hb ⊢
    cases hc1 : c1 a.1 b.1 <;> rw [hc1] at ha <;> simp [Ordering.then] at ha
    · cases hc2 : c1 b.1 c.1 <;> rw [hc2] at hb <;> simp [Ordering.then] at hb
      · have := h1.lt_trans _ _ _ hc1 hc2
        simp [this, Ordering.then]
      · have he : b.1 = c.1 := (h1.eq_iff _ _).mp hc2
        have : c1 a.1 c.1 = .lt := he ▸ hc1
        simp [this, Ordering.then]
    · have he : a.1 = b.1 := (h1.eq_iff _ _).mp hc1
      cases hc2 : c1 b.1 c.1 <;> rw [hc2] at hb <;> simp [Ordering.then] at hb
      · have : c1 a.1 c.1 = .lt := he ▸ hc2
        simp [this, Ordering.then]
      · have he2 : b.1 = c.1 := (h1.eq_iff _ _).mp hc2
        have heq : c1 a.1 c.1 = .eq := (h1.eq_iff _ _).mpr (he.trans he2)
        have := h2.lt_trans _ _ _ ha hb
        simp [heq, Ordering.then, this]

/-- Version as a nested tuple, for transporting comparison laws. -/
def Version.toTuple (v : Version) : Nat × Nat × Nat × List String :=
  (v.major, v.minor, v.patch, v.pre)

theorem Version.toTuple_injective : Function.Injective Version.toTuple := by
  intro a b h
  cases a
  cases b
  simp [Version.toTuple] at h
  obtain ⟨h1, h2, h3, h4⟩ := h
  simp [h1, h2, h3, h4]

theorem Version.compare_eq_tuple (a b : Version) :
    Version.compare a b =
      cmpProd cmpNat (cmpProd cmpNat (cmpProd cmpNat cmpPre))
        a.toTuple b.toTuple := rfl

theorem Version.compare_law : CmpLaw Version.compare := by
  have base := cmpProd_law cmpNat_law
    (cmpProd_law cmpNat_law (cmpProd_law cmpNat_law cmpPre_law))
  constructor
  · intro a b
    rw [Version.compare_eq_tuple]
    rw [base.eq_iff]
    constructor
    · exact fun h => Version.toTuple_injective h
    · intro h
      rw [h]
  · intro a b
    rw [Version.compare_eq_tuple, Version.compare_eq_tuple]
    exact base.swap _ _
  · intro a b c h1 h2
    rw [Version.compare_eq_tuple] at h1 h2 ⊢
    exact base.lt_trans _ _ _ h1 h2

theorem Version.lt_trans {a b c : Version} (h1 : a.lt b = true)
    (h2 : b.lt c = true) : a.lt c = true := by
  unfold Version.lt at h1 h2 ⊢
  simp only [decide_eq_true_eq] at h1 h2 ⊢
  exact Version.compare_law.lt_trans a b c h1 h2

theorem Version.lt_irrefl (a : Version) : a.lt a = false := by
  unfold Version.lt
  have : Version.compare a a = .eq := (Version.compare_law.eq_iff a a).mpr rfl
  simp [this]

theorem Version.lt_asymm {a b : Version} (h : a.lt b = true) :
    b.lt a = false := by
  unfold Version.lt at h ⊢
  simp only [decide_eq_true_eq] at h
  have hs := Version.compare_law.swap a b
  rw [h] at hs
  simp [Ordering.swap] at hs
  simp [← hs]

theorem Version.lt_total {a b : Version} (hne : a ≠ b) :
    a.lt b = true ∨ b.lt a = true := by
  unfold Version.lt
  have hs := Version.compare_law.swap a b
  cases hc : Version.compare a b
  · left
    simp
  · exact absurd ((Version.compare_law.eq_iff a b).mp hc) hne
  · right
    rw [hc] at hs
    simp [Ordering.swap] at hs
    simp [← hs]

theorem lookupA_mem {α β : Type _} [DecidableEq α] {k : α} {v : β} :
    ∀ {l : List (α × β)}, lookupA k l = some v → (k, v) ∈ l := by
  intro l
  induction l with
  | nil => intro h; simp [lookupA] at h
  | cons p rest ih =>
    intro h
    unfold lookupA at h
    split_ifs at h with hk
    · cases p
      simp at hk h
      simp [hk, h]
    · exact List.mem_cons_of_mem _ (ih h)

theorem lookupA_eq_none {α β : Type _} [DecidableEq α] {k : α} :
    ∀ {l : List (α × β)}, lookupA k l = none ↔ k ∉ l.map Prod.fst := by
  intro l
  induction l with
  | nil => simp [lookupA]
  | cons p rest ih =>
    simp only [lookupA]
    split_ifs with hk
    · simp [hk]
    · rw [ih]
      simp only [List.map_cons, List.mem_cons]
      constructor
      · intro hnm hor
        rcases hor with h1 | h2
        · exact hk h1.symm
        · exact hnm h2
      · intro hnm hmem
        exact hnm (Or.inr hmem)

theorem lookupA_append_some {α β : Type _} [DecidableEq α] {k : α} {v : β}
    {l1 l2 : List (α × β)} (h : lookupA k l1 = some v) :
    lookupA k (l1 ++ l2) = some v := by
  induction l1 with
  | nil => simp [lookupA] at h
  | cons p rest ih =>
    rw [List.cons_append]
    simp only [lookupA] at h ⊢
    split_ifs at h ⊢ with hk
    · exact h
    · exact ih h

theorem lookupA_append_none {α β : Type _} [DecidableEq α] {k : α}
    {l1 l2 : List (α × β)} (h : lookupA k l1 = none) :
    lookupA k (l1 ++ l2) = lookupA k l2 := by
  induction l1 with
  | nil => simp
  | cons p rest ih =>
    rw [List.cons_append]
    simp only [lookupA] at h ⊢
    split_ifs at h ⊢ with hk
    · exact ih h

theorem lookupA_cons_self {α β : Type _} [DecidableEq α] (k : α) (v : β)
    (l : List (α × β)) : lookupA k ((k, v) :: l) = some v := by
  simp [lookupA]

theorem filter_fst_length_le_one {α β : Type _} [DecidableEq α] {k : α} :
    ∀ {l : List (α × β)}, (l.map Prod.fst).Nodup →
      (l.filter (fun p => p.1 = k)).length ≤ 1 := by
  intro l
  induction l with
  | nil => intro; simp
  | cons p rest ih =>
    intro hnd
    simp only [List.map_cons, List.nodup_cons] at hnd
    by_cases hk : p.1 = k
    · have hrest : rest.filter (fun p => decide (p.1 = k)) = [] := by
        rw [List.filter_eq_nil]
        intro a ha
        simp only [decide_eq_true_eq]
        intro hak
        exact hnd.1 (by
          rw [hk, ← hak]
          exact List.mem_map_of_mem Prod.fst ha)
      simp [List.filter_cons, hk, hrest]
    · simp [List.filter_cons, hk]
      exact ih hnd.2

/-- Claim C10: PlatformMap::is_supported is true exactly when the token set
is empty, or the platform occurs verbatim as an allow token and does not
occur as a deny token; consequently a non-empty all-deny map supports no
platform at all. -/
theorem c10_is_supported_semantics (m : PlatformMap) (p : String) :
    (m.isSupported p = true ↔
      (m.tokens = [] ∨ (p ∈ m.allowed ∧ ¬ p ∈ m.blocked))) ∧
    ((m.tokens ≠ [] ∧ ∀ x ∈ m.tokens, startsWithBang x = true) →
      m.isSupported p = false) := by
  constructor
  · unfold PlatformMap.isSupported PlatformMap.isEmpty
    split_ifs with h
    · rw [List.isEmpty_iff] at h
      simp [h]
    · have hne : ¬ m.tokens = [] := by
        intro he
        exact h (by simp [he])
      simp only [hne, false_or]
      constructor
      · intro hb
        rw [Bool.and_eq_true] at hb
        obtain ⟨ha, hbk⟩ := hb
        constructor
        · rcases List.any_eq_true.mp ha with ⟨x, hx, hxe⟩
          simp only [decide_eq_true_eq] at hxe
          rw [hxe] at hx
          exact hx
        · intro hpb
          have hby : m.blocked.any (fun o => decide (o = p)) = true :=
            List.any_eq_true.mpr ⟨p, hpb, by simp⟩
          simp [hby] at hbk
      · rintro ⟨ha, hb⟩
        rw [Bool.and_eq_true]
        refine ⟨List.any_eq_true.mpr ⟨p, ha, by simp⟩, ?_⟩
        rw [decide_eq_true_eq]
        intro hany
        rcases List.any_eq_true.mp hany with ⟨x, hx, hxe⟩
        simp only [decide_eq_true_eq] at hxe
        rw [hxe] at hx
        exact hb hx
  · rintro ⟨hne, hall⟩
    have hallowed : m.allowed = [] := by
      unfold PlatformMap.allowed
      rw [List.filter_eq_nil]
      intro a ha
      simp [hall a ha]
    unfold PlatformMap.isSupported PlatformMap.isEmpty
    rw [if_neg (by simp [List.isEmpty_iff, hne])]
    simp [hallowed]

/-- Witness for C10 at the all-deny map containing only the deny token for
win32: linux is not supported. -/
theorem c10_is_supported_semantics_witness :
    ((PlatformMap.mk ["!win32"]).tokens ≠ [] ∧
      ∀ x ∈ (PlatformMap.mk ["!win32"]).tokens, startsWithBang x = true) ∧
    (PlatformMap.mk ["!win32"]).isSupported "linux" = false :=
  ⟨⟨by decide, by decide⟩,
    (c10_is_supported_semantics ⟨["!win32"]⟩ "linux").2 ⟨by decide, by decide⟩⟩

/-- Counterexample for C9: for the bin entry (cli, cli.mjs) of the package
pkg with no existing target, the created shim points at ../pkg/cli.js (the
mjs extension is replaced), not at ../pkg/cli.mjs.js as the claim states. -/
theorem c9_counterexample :
    binShims depCliBin (fun _ => false) =
      [("node_modules/.bin/cli", "../pkg/cli.js")] ∧
    ¬ ("../pkg/cli.js" : String) = "../pkg/cli.mjs" ++ ".js" := by
  constructor
  · decide
  · decide

theorem intercalate_single (sep x : List Char) :
    List.intercalate sep [x] = x := by
  simp [List.intercalate, List.intersperse]

theorem intercalate_cons2 (sep a b : List Char) (t : List (List Char)) :
    List.intercalate sep (a :: b :: t) =
      a ++ sep ++ List.intercalate sep (b :: t) := by
  simp [List.intercalate, List.intersperse_cons_cons]

theorem intercalate_append_last (sep suf : List Char) :
    ∀ (ys : List (List Char)) (last : List Char),
      List.intercalate sep (ys ++ [last ++ suf]) =
        List.intercalate sep (ys ++ [last]) ++ suf := by
  intro ys
  induction ys with
  | nil =>
    intro last
    rw [List.nil_append, List.nil_append, intercalate_single, intercalate_single]
  | cons a t ih =>
    intro last
    cases t with
    | nil =>
      simp only [List.singleton_append]
      rw [intercalate_cons2, intercalate_cons2, intercalate_single,
        intercalate_single]
      simp [List.append_assoc]
    | cons b t2 =>
      simp only [List.cons_append]
      rw [intercalate_cons2 sep a b (t2 ++ [last ++ suf])]
      rw [intercalate_cons2 sep a b (t2 ++ [last])]
      have hih := ih last
      simp only [List.cons_append] at hih
      rw [hih]
      simp [List.append_assoc]

theorem setExtensionJs_no_dot (p : String) (last : List Char)
    (hl : (p.data.splitOn '/').getLast? = some last)
    (hnd : (last.drop 1).contains '.' = false) :
    setExtensionJs p = p ++ ".js" := by
  have hseg : setExtJsSeg last = last ++ ['.', 'j', 's'] := by
    unfold setExtJsSeg
    rw [if_neg (fun hc => by rw [hc] at hnd; exact Bool.noConfusion hnd)]
  unfold setExtensionJs
  rw [hl]
  show String.mk (List.intercalate ['/']
      ((p.data.splitOn '/').dropLast ++ [setExtJsSeg last])) = p ++ ".js"
  rw [hseg]
  rcases List.getLast?_eq_some_iff.mp hl with ⟨ys, hys⟩
  rw [hys, List.dropLast_concat]
  rw [intercalate_append_last]
  rw [← hys]
  rw [List.intercalate_splitOn]
  apply String.ext
  simp

theorem filterMap_if_eq_map_filter {α β : Type _} (pred : α → Bool) (f : α → β) :
    ∀ l : List α,
      (l.filterMap (fun a => if pred a then none else some (f a))) =
        (l.filter (fun a => ! pred a)).map f := by
  intro l
  induction l with
  | nil => rfl
  | cons a t ih =>
    by_cases h : pred a
    · simp [List.filterMap_cons, List.filter_cons, h, ih]
    · simp [List.filterMap_cons, List.filter_cons, h, ih]

/-- Claim C9 (amended): for a top-level package, exactly the bin entries
whose command contains no slash produce a shim at node_modules/.bin/command;
the target is ../name/path when that file exists under node_modules/.bin and
otherwise the set_extension js fallback, which appends .js only when the
final path segment has no embedded dot (and replaces the extension when it
has one). -/
theorem c9_bin_shims (dep : Dependency) (existsAt : String → Bool)
    (p : String) (last : List Char)
    (hl : (p.data.splitOn '/').getLast? = some last)
    (hnd : (last.drop 1).contains '.' = false) :
    binShims dep existsAt =
      (dep.bins.filter (fun cp => ! (cp.1.data.contains '/'))).map (fun cp =>
        ("node_modules/.bin/" ++ cp.1,
          if existsAt ("node_modules/.bin/" ++ ("../" ++ dep.name ++ "/" ++ cp.2))
          then "../" ++ dep.name ++ "/" ++ cp.2
          else setExtensionJs ("../" ++ dep.name ++ "/" ++ cp.2))) ∧
    setExtensionJs p = p ++ ".js" := by
  constructor
  · exact filterMap_if_eq_map_filter
      (fun cp : String × String => cp.1.data.contains '/')
      (fun cp : String × String =>
        ("node_modules/.bin/" ++ cp.1,
          if existsAt ("node_modules/.bin/" ++ ("../" ++ dep.name ++ "/" ++ cp.2))
          then "../" ++ dep.name ++ "/" ++ cp.2
          else setExtensionJs ("../" ++ dep.name ++ "/" ++ cp.2))) dep.bins
  · exact setExtensionJs_no_dot p last hl hnd

/-- Witness for C9 at the concrete package pkg with bins (cli, cli.mjs) and
(sub/tool, x), and the extension-free path ../pkg/bin/cli. -/
theorem c9_bin_shims_witness :
    binShims ⟨"pkg", mkVer 1 0 0, "tar", [("cli", "cli.mjs"), ("sub/tool", "x")], []⟩
        (fun _ => false) =
      [("node_modules/.bin/cli", "../pkg/cli.js")] ∧
    setExtensionJs "../pkg/bin/cli" = "../pkg/bin/cli" ++ ".js" := by
  have h := c9_bin_shims
    ⟨"pkg", mkVer 1 0 0, "tar", [("cli", "cli.mjs"), ("sub/tool", "x")], []⟩
    (fun _ => false) "../pkg/bin/cli" ['c', 'l', 'i'] (by decide) (by decide)
  refine ⟨?_, h.2⟩
  rw [h.1]
  decide

/-- Counterexample for C5: the plan holding the single tree a at 1.0.0 does
not satisfy the manifest whose one direct dependency uses the aliased (npm
prefixed) specifier for a, although every direct dependency has a top-level
tree entry whose root version satisfies its declared specifier. -/
theorem c5_counterexample :
    Plan.satisfies planOne manifestAliased = false ∧
    ∀ req ∈ manifestAliased.iterWithDev, ∃ t ∈ planOne.trees,
      t.2.root.name = req.name ∧ req.version.satisfies t.2.root.version = true := by
  constructor
  · decide
  · decide

/-- Claim C5 (amended): Plan::satisfies is true exactly when every direct
dependency of the manifest (dev and optional included) finds its name in the
collected top-level root-version map, its specifier is the Range form, and
the recorded version satisfies that range; any other specifier form makes
Plan::satisfies false even when the dependency is present. -/
theorem c5_plan_satisfies (plan : Plan) (package : Package) :
    Plan.satisfies plan package = true ↔
      ∀ req ∈ package.iterWithDev, ∃ ver,
        lookupA req.name (planRootVersions plan) = some ver ∧
        ∃ r, req.version = VersionSpecifier.range r ∧ r.satisfies ver = true := by
  unfold Plan.satisfies
  rw [List.all_eq_true]
  constructor
  · intro h req hreq
    have hr := h req hreq
    cases hlk : lookupA req.name (planRootVersions plan) with
    | none => rw [hlk] at hr; simp at hr
    | some ver =>
      rw [hlk] at hr
      cases hv : req.version with
      | range r =>
        rw [hv] at hr
        exact ⟨ver, rfl, r, rfl, hr⟩
      | prefixed a b => rw [hv] at hr; simp at hr
      | directUrl u => rw [hv] at hr; simp at hr
      | other t => rw [hv] at hr; simp at hr
  · intro h req hreq
    rcases h req hreq with ⟨ver, hlk, r, hr, hs⟩
    rw [hlk, hr]
    exact hs

theorem cacheGet_entries_extend {κ : Type _} [DecidableEq κ]
    (s : CacheState κ) (k : κ) :
    ∃ ext, (cacheGet s k).1.entries = s.entries ++ ext := by
  unfold cacheGet
  cases h : lookupA k s.entries
  · exact ⟨[(k, s.nextHandle)], rfl⟩
  · exact ⟨[], by simp⟩

theorem cacheGet_lookup_result {κ : Type _} [DecidableEq κ]
    (s : CacheState κ) (k : κ) :
    lookupA k (cacheGet s k).1.entries = some (cacheGet s k).2 := by
  unfold cacheGet
  cases h : lookupA k s.entries
  · simp only []
    rw [lookupA_append_none h, lookupA_cons_self]
  · simpa using h

theorem cacheGet_inv {κ : Type _} [DecidableEq κ] (s : CacheState κ) (k : κ)
    (h1 : s.entries = s.loaderRuns) (h2 : (s.entries.map Prod.fst).Nodup) :
    (cacheGet s k).1.entries = (cacheGet s k).1.loaderRuns ∧
      ((cacheGet s k).1.entries.map Prod.fst).Nodup := by
  unfold cacheGet
  cases h : lookupA k s.entries
  · refine ⟨by simp [h1], ?_⟩
    simp only [List.map_append, List.map_cons, List.map_nil]
    rw [List.nodup_append]
    refine ⟨h2, by simp, ?_⟩
    intro a ha hmem
    simp only [List.map_cons, List.map_nil, List.mem_singleton] at hmem
    rw [lookupA_eq_none] at h
    rw [hmem] at ha
    exact h ha
  · exact ⟨h1, h2⟩

theorem cacheRun_spec {κ : Type _} [DecidableEq κ] :
    ∀ (ks : List κ) (s : CacheState κ),
      (∃ ext, (cacheRun s ks).1.entries = s.entries ++ ext) ∧
      (∀ p ∈ (cacheRun s ks).2,
        lookupA p.1 (cacheRun s ks).1.entries = some p.2) := by
  intro ks
  induction ks with
  | nil =>
    intro s
    exact ⟨⟨[], by simp [cacheRun]⟩, by simp [cacheRun]⟩
  | cons k rest ih =>
    intro s
    have hstep := cacheGet_lookup_result s k
    obtain ⟨ext1, hext1⟩ := cacheGet_entries_extend s k
    obtain ⟨⟨ext2, hext2⟩, hlk⟩ := ih (cacheGet s k).1
    constructor
    · refine ⟨ext1 ++ ext2, ?_⟩
      show (cacheRun (cacheGet s k).1 rest).1.entries = _
      rw [hext2, hext1, List.append_assoc]
    · intro p hp
      simp only [cacheRun, List.mem_cons] at hp
      rcases hp with hp | hp
      · subst hp
        show lookupA k (cacheRun (cacheGet s k).1 rest).1.entries = _
        rw [hext2]
        exact lookupA_append_some hstep
      · exact hlk p hp

theorem cacheRun_inv {κ : Type _} [DecidableEq κ] :
    ∀ (ks : List κ) (s : CacheState κ),
      s.entries = s.loaderRuns → (s.entries.map Prod.fst).Nodup →
      (cacheRun s ks).1.entries = (cacheRun s ks).1.loaderRuns ∧
        ((cacheRun s ks).1.entries.map Prod.fst).Nodup := by
  intro ks
  induction ks with
  | nil =>
    intro s h1 h2
    exact ⟨h1, h2⟩
  | cons k rest ih =>
    intro s h1 h2
    have hstep := cacheGet_inv s k h1 h2
    exact ih (cacheGet s k).1 hstep.1 hstep.2

/-- Claim C7: over any serialized history of get calls on an initially empty
cache, the loader runs at most once per key, any two calls on the same key
observe the same shared handle (hence the same value of the completed shared
future), and that handle is the one recorded by the single loader run for the
key. -/
theorem c7_cache_loader_once {κ : Type _} [DecidableEq κ] (ks : List κ) (k : κ) :
    ((cacheRun (CacheState.init : CacheState κ) ks).1.loaderRuns.filter
        (fun p => p.1 = k)).length ≤ 1 ∧
    (∀ h1 h2 : Nat,
      (k, h1) ∈ (cacheRun (CacheState.init : CacheState κ) ks).2 →
      (k, h2) ∈ (cacheRun (CacheState.init : CacheState κ) ks).2 → h1 = h2) ∧
    (∀ h : Nat, (k, h) ∈ (cacheRun (CacheState.init : CacheState κ) ks).2 →
      (k, h) ∈ (cacheRun (CacheState.init : CacheState κ) ks).1.loaderRuns) := by
  have hinit1 : (CacheState.init : CacheState κ).entries =
      (CacheState.init : CacheState κ).loaderRuns := rfl
  have hinit2 : (((CacheState.init : CacheState κ)).entries.map Prod.fst).Nodup := by
    simp [CacheState.init]
  obtain ⟨heq, hnd⟩ := cacheRun_inv ks (CacheState.init : CacheState κ) hinit1 hinit2
  obtain ⟨_, hlk⟩ := cacheRun_spec ks (CacheState.init : CacheState κ)
  refine ⟨?_, ?_, ?_⟩
  · rw [← heq]
    exact filter_fst_length_le_one hnd
  · intro h1 h2 hm1 hm2
    have e1 := hlk (k, h1) hm1
    have e2 := hlk (k, h2) hm2
    rw [e1] at e2
    exact Option.some.inj e2
  · intro h hm
    have e := hlk (k, h) hm
    rw [← heq]
    exact lookupA_mem e

/-- Witness for C7 on the two-call history for the key 0: both calls observe
handle 0 and the loader ran once. -/
theorem c7_cache_loader_once_witness :
    (cacheRun (CacheState.init : CacheState Nat) [0, 0]).2 = [(0, 0), (0, 0)] ∧
    ((cacheRun (CacheState.init : CacheState Nat) [0, 0]).1.loaderRuns.filter
        (fun p => p.1 = 0)).length ≤ 1 ∧ (0 : Nat) = 0 :=
  ⟨by decide, (c7_cache_loader_once [0, 0] 0).1,
    (c7_cache_loader_once [0, 0] 0).2.1 0 0 (by decide) (by decide)⟩

theorem fetchDepSingle_satisfies {reg : Registry} {d : DepReq} {ver : Version}
    {sub : Subpackage} (h : fetchDepSingle reg d = some (ver, sub)) :
    d.version.satisfies ver = (! d.version.isOther) := by
  unfold fetchDepSingle at h
  cases hlk : lookupA d.name reg with
  | none =>
    rw [hlk] at h
    exact absurd h (by simp)
  | some res =>
    rw [hlk] at h
    cases hv : d.version with
    | other tag =>
      simp [VersionSpecifier.satisfies, VersionSpecifier.isOther]
    | range r =>
      rw [hv] at h
      have hfind := List.find?_some h
      simp only at hfind
      simp [VersionSpecifier.isOther, hfind]
    | prefixed a b =>
      simp [VersionSpecifier.satisfies, VersionSpecifier.isOther]
    | directUrl u =>
      simp [VersionSpecifier.satisfies, VersionSpecifier.isOther]

theorem appendResolve_entries {reg : Registry}
    (P : DepReq × VersionedSubpackage → Prop)
    (hP : ∀ req v sub, fetchDepSingle reg req = some (v, sub) → P (req, ⟨sub, v⟩)) :
    ∀ (fuel : Nat) (rel : GraphL) (queue : List DepReq) (out : GraphL),
      appendResolve reg fuel rel queue = some out →
      (∀ p ∈ rel, P p) → ∀ p ∈ out, P p := by
  intro fuel
  induction fuel with
  | zero =>
    intro rel queue out h
    simp [appendResolve] at h
  | succ n ih =>
    intro rel queue out h hrel
    cases queue with
    | nil =>
      simp only [appendResolve] at h
      cases h
      exact hrel
    | cons req rest =>
      simp only [appendResolve] at h
      split_ifs at h with hmem
      · exact ih rel rest out h hrel
      · cases hf : fetchDepSingle reg req with
        | none =>
          rw [hf] at h
          exact absurd h (by simp)
        | some pr =>
          rw [hf] at h
          obtain ⟨v, sub⟩ := pr
          apply ih _ _ out h
          intro p hp
          rcases List.mem_append.mp hp with hp1 | hp1
          · exact hrel p hp1
          · simp only [List.mem_singleton] at hp1
            rw [hp1]
            exact hP req v sub hf

/-- Claim C1 (amended): every entry that Graph::append adds to the graph (a
key not already present before the call) has a pinned version that satisfies
its specifier exactly when the specifier is not the Other (dist-tag) form;
Range, Prefixed and DirectUrl requests always satisfy, while satisfies on a
tag request returns false even though the pinned version is the tag target. -/
theorem c1_resolver_satisfaction (reg : Registry) (fuel : Nat) (g0 : GraphL)
    (roots : List DepReq) (g1 : GraphL)
    (h : appendResolve reg fuel g0 roots = some g1) :
    ∀ p ∈ g1, p.1 ∉ graphKeys g0 →
      p.1.version.satisfies p.2.version = (! p.1.version.isOther) := by
  have hmain := appendResolve_entries
    (fun p => p.1 ∈ graphKeys g0 ∨
      p.1.version.satisfies p.2.version = (! p.1.version.isOther))
    (fun req v sub hf => Or.inr (fetchDepSingle_satisfies hf))
    fuel g0 roots g1 h
    (fun p hp => Or.inl (List.mem_map_of_mem (fun q => q.1) hp))
  intro p hp hnot
  rcases hmain p hp with hin | hq
  · exact absurd hin hnot
  · exact hq

/-- Witness for C1 at the caret request over the four-version registry: the
resolver pins 1.2.0 and the specifier is satisfied. -/
theorem c1_resolver_satisfaction_witness :
    appendResolve regFour 4 [] [reqCaret] =
      some [(reqCaret, ⟨basePkg "p", mkVer 1 2 0⟩)] ∧
    VersionSpecifier.satisfies reqCaret.version (mkVer 1 2 0) =
      (! reqCaret.version.isOther) :=
  ⟨by decide,
    c1_resolver_satisfaction regFour 4 [] [reqCaret]
      [(reqCaret, ⟨basePkg "p", mkVer 1 2 0⟩)] (by decide)
      (reqCaret, ⟨basePkg "p", mkVer 1 2 0⟩) (by decide) (by decide)⟩

/-- Counterexample for C1: appending the latest dist-tag request pins the tag
target 1.0.0, yet satisfies on the stored key returns false (the Other form
never satisfies), so the claim fails for tag specifiers. -/
theorem c1_counterexample :
    appendResolve regTagged 3 [] [reqLatest] =
      some [(reqLatest, ⟨basePkg "p", mkVer 1 0 0⟩)] ∧
    VersionSpecifier.satisfies reqLatest.version (mkVer 1 0 0) = false := by
  exact ⟨by decide, by decide⟩

theorem appendResolve_closure (reg : Registry) (K : List DepReq) :
    ∀ (fuel : Nat) (rel : GraphL) (queue : List DepReq) (out : GraphL),
      appendResolve reg fuel rel queue = some out →
      (∀ p ∈ rel, p.1 ∉ K → ∀ c ∈ p.2.package.iterReqs,
        c ∈ graphKeys rel ∨ c ∈ queue) →
      ∀ p ∈ out, p.1 ∉ K → ∀ c ∈ p.2.package.iterReqs, c ∈ graphKeys out := by
  intro fuel
  induction fuel with
  | zero =>
    intro rel queue out h
    simp [appendResolve] at h
  | succ n ih =>
    intro rel queue out h hinv
    cases queue with
    | nil =>
      simp only [appendResolve] at h
      cases h
      intro p hp hnk c hc
      rcases hinv p hp hnk c hc with hin | hin
      · exact hin
      · simp at hin
    | cons req rest =>
      simp only [appendResolve] at h
      split_ifs at h with hmem
      · apply ih rel rest out h
        intro p hp hnk c hc
        rcases hinv p hp hnk c hc with hin | hin
        · exact Or.inl hin
        · rcases List.mem_cons.mp hin with he | he
          · exact Or.inl (he ▸ hmem)
          · exact Or.inr he
      · cases hf : fetchDepSingle reg req with
        | none =>
          rw [hf] at h
          exact absurd h (by simp)
        | some pr =>
          rw [hf] at h
          obtain ⟨v, sub⟩ := pr
          apply ih _ _ out h
          intro p hp hnk c hc
          rcases List.mem_append.mp hp with hp1 | hp1
          · rcases hinv p hp1 hnk c hc with hin | hin
            · refine Or.inl ?_
              unfold graphKeys at hin ⊢
              rw [List.map_append]
              exact List.mem_append.mpr (Or.inl hin)
            · rcases List.mem_cons.mp hin with he | he
              · refine Or.inl ?_
                subst he
                unfold graphKeys
                rw [List.map_append]
                exact List.mem_append.mpr (Or.inr (by simp))
              · exact Or.inr (List.mem_append.mpr (Or.inr he))
          · simp only [List.mem_singleton] at hp1
            subst hp1
            exact Or.inr (List.mem_append.mpr (Or.inl hc))

/-- Claim C6 (amended): after Graph::append succeeds, every entry it added
during the call (a key not present beforehand) has all of its child requests
present as keys of the resulting graph; entries that were already present
before the call are not re-examined, so their children need not be present. -/
theorem c6_resolver_closure (reg : Registry) (fuel : Nat) (g0 : GraphL)
    (roots : List DepReq) (g1 : GraphL)
    (h : appendResolve reg fuel g0 roots = some g1) :
    ∀ p ∈ g1, p.1 ∉ graphKeys g0 →
      ∀ c ∈ p.2.package.iterReqs, c ∈ graphKeys g1 :=
  appendResolve_closure reg (graphKeys g0) fuel g0 roots g1 h
    (fun p hp hnk => absurd (List.mem_map_of_mem (fun q => q.1) hp) hnk)

/-- Witness for C6 on the chain registry: appending a pulls in b, and the
child request of a is a key of the resulting graph. -/
theorem c6_resolver_closure_witness :
    appendResolve regChain 5 [] [reqStarA] =
      some [(reqStarA, ⟨pkgDependingOnB, mkVer 1 0 0⟩),
            (reqStarB, ⟨basePkg "b", mkVer 1 0 0⟩)] ∧
    reqStarB ∈ graphKeys
      [(reqStarA, ⟨pkgDependingOnB, mkVer 1 0 0⟩),
       (reqStarB, ⟨basePkg "b", mkVer 1 0 0⟩)] :=
  ⟨by decide,
    c6_resolver_closure regChain 5 [] [reqStarA]
      [(reqStarA, ⟨pkgDependingOnB, mkVer 1 0 0⟩),
       (reqStarB, ⟨basePkg "b", mkVer 1 0 0⟩)] (by decide)
      (reqStarA, ⟨pkgDependingOnB, mkVer 1 0 0⟩) (by decide) (by decide)
      reqStarB (by decide)⟩

/-- Counterexample for C6: a pre-existing graph entry whose child b is absent
stays unexamined when append is called with no roots, so the resulting graph
is not closed for entries that were already present. -/
theorem c6_counterexample :
    appendResolve [] 3 staleGraph [] = some staleGraph ∧
    reqStarB ∈ pkgDependingOnB.iterReqs ∧
    reqStarB ∉ graphKeys staleGraph := by
  exact ⟨by decide, by decide, by decide⟩

theorem find?_reverse_structure {α : Type _} {p : α → Bool} {l : List α}
    {b : α} (h : l.reverse.find? p = some b) :
    p b = true ∧ ∃ as bs, l = as ++ b :: bs ∧ ∀ a ∈ bs, ¬ p a = true := by
  rw [List.find?_eq_some] at h
  obtain ⟨hpb, xs, ys, hrev, hxs⟩ := h
  refine ⟨hpb, ys.reverse, xs.reverse, ?_, ?_⟩
  · have h2 : l = (xs ++ b :: ys).reverse := by
      rw [← hrev, List.reverse_reverse]
    rw [h2]
    simp [List.reverse_append]
  · intro a ha
    rw [List.mem_reverse] at ha
    simpa using hxs a ha

theorem pairwise_middle_left {α : Type _} {R : α → α → Prop} {l as bs : List α}
    {x : α} (hp : List.Pairwise R l) (hl : l = as ++ x :: bs) :
    ∀ a ∈ as, R a x := by
  subst hl
  rw [List.pairwise_append] at hp
  intro a ha
  exact hp.2.2 a ha x (List.mem_cons_self x bs)

theorem isPrerelease_false_iff (v : Version) :
    v.isPrerelease = false ↔ v.pre = [] := by
  unfold Version.isPrerelease
  constructor
  · intro h
    by_contra hne
    simp [hne] at h
  · intro h
    simp [h]

/-- Claim C2 (amended): for a range request against a registry document whose
versions list is strictly ascending in semver order within each stability
class and contains at least one match, fetch_dep_single picks a matching
version from the list such that, if
any stable version matches, the pick is stable, and no matching version of
the same stability class is strictly greater than the pick. On an
insertion-ordered list that is not ascending, the pick is the last match in
insertion order (stable preferred) and need not be the greatest. -/
theorem c2_version_pick (reg : Registry) (name : String) (r : Range)
    (res : RegistryResponse)
    (hreg : lookupA name reg = some res)
    (hascS : List.Pairwise (fun a b : Version × Subpackage => a.1.lt b.1 = true)
      (res.versions.filter (fun q => ¬ q.1.isPrerelease = true)))
    (hascP : List.Pairwise (fun a b : Version × Subpackage => a.1.lt b.1 = true)
      (res.versions.filter (fun q => q.1.isPrerelease)))
    (hmatch : ∃ q ∈ res.versions, r.satisfies q.1 = true) :
    ∃ ver sub,
      fetchDepSingle reg ⟨name, .range r, false⟩ = some (ver, sub) ∧
      r.satisfies ver = true ∧ (ver, sub) ∈ res.versions ∧
      ((∃ q ∈ res.versions, r.satisfies q.1 = true ∧ q.1.pre = []) →
        ver.pre = []) ∧
      (∀ q ∈ res.versions, r.satisfies q.1 = true →
        q.1.isPrerelease = ver.isPrerelease → ver.lt q.1 = false) := by
  classical
  set pred : Version × Subpackage → Bool :=
    fun q => (VersionSpecifier.range r).satisfies q.1 with hpred
  set pres : List (Version × Subpackage) :=
    res.versions.filter (fun q => q.1.isPrerelease) with hpres
  set stab : List (Version × Subpackage) :=
    res.versions.filter (fun q => ¬ q.1.isPrerelease = true) with hstab
  have hpred_eq : ∀ q : Version × Subpackage, pred q = r.satisfies q.1 :=
    fun q => rfl
  have heq : fetchDepSingle reg ⟨name, .range r, false⟩ =
      (pres ++ stab).reverse.find? pred := by
    unfold fetchDepSingle
    rw [hreg]
  have hrevsplit : (pres ++ stab).reverse = stab.reverse ++ pres.reverse := by
    rw [List.reverse_append]
  have hpw_stab : List.Pairwise (fun a b : Version × Subpackage =>
      a.1.lt b.1 = true) stab := hascS
  have hpw_pres : List.Pairwise (fun a b : Version × Subpackage =>
      a.1.lt b.1 = true) pres := hascP
  -- the search cannot fail
  have hsome : ∃ x, (pres ++ stab).reverse.find? pred = some x := by
    cases hfd : (pres ++ stab).reverse.find? pred with
    | some x => exact ⟨x, rfl⟩
    | none =>
      rw [List.find?_eq_none] at hfd
      obtain ⟨q, hq, hqs⟩ := hmatch
      have hqin : q ∈ pres ++ stab := by
        rw [List.mem_append]
        cases hc : q.1.isPrerelease with
        | true =>
          exact Or.inl (List.mem_filter.mpr ⟨hq, by simp [hc]⟩)
        | false =>
          exact Or.inr (List.mem_filter.mpr ⟨hq, by simp [hc]⟩)
      have := hfd q (by rwa [List.mem_reverse])
      rw [hpred_eq q] at this
      exact absurd hqs this
  obtain ⟨x, hfd⟩ := hsome
  obtain ⟨ver, sub⟩ := x
  refine ⟨ver, sub, by rw [heq, hfd], ?_, ?_, ?_, ?_⟩
  · have := List.find?_some hfd
    rw [hpred_eq] at this
    exact this
  · have := List.mem_of_find?_eq_some hfd
    rw [List.mem_reverse, List.mem_append] at this
    rcases this with hin | hin
    · exact (List.mem_filter.mp hin).1
    · exact (List.mem_filter.mp hin).1
  · -- stability preference
    rintro ⟨q, hq, hqs, hqstable⟩
    have hqstab : q ∈ stab := by
      refine List.mem_filter.mpr ⟨hq, ?_⟩
      have : q.1.isPrerelease = false := (isPrerelease_false_iff q.1).mpr hqstable
      simp [this]
    rw [hrevsplit, List.find?_append] at hfd
    cases hs : stab.reverse.find? pred with
    | none =>
      rw [List.find?_eq_none] at hs
      have := hs q (by rwa [List.mem_reverse])
      rw [hpred_eq q] at this
      exact absurd hqs this
    | some y =>
      rw [hs] at hfd
      have hy : y = (ver, sub) := Option.some.inj (by rw [← hfd]; rfl)
      subst hy
      have hmem := List.mem_of_find?_eq_some hs
      rw [List.mem_reverse] at hmem
      have := (List.mem_filter.mp hmem).2
      simp only [decide_eq_true_eq, Bool.not_eq_true] at this
      exact (isPrerelease_false_iff ver).mp (by simpa using this)
  · -- greatest within the stability class of the pick
    intro q hq hqs hclass
    rw [hrevsplit, List.find?_append] at hfd
    cases hs : stab.reverse.find? pred with
    | some y =>
      rw [hs] at hfd
      have hy : y = (ver, sub) := Option.some.inj (by rw [← hfd]; rfl)
      subst hy
      -- the pick is stable
      have hmem := List.mem_of_find?_eq_some hs
      rw [List.mem_reverse] at hmem
      have hstable := (List.mem_filter.mp hmem).2
      have hverf : ver.isPrerelease = false := by
        simpa using hstable
      have hqf : q.1.isPrerelease = false := by
        rw [hclass, hverf]
      have hqstab : q ∈ stab := by
        refine List.mem_filter.mpr ⟨hq, ?_⟩
        simp [hqf]
      obtain ⟨-, as, bs, hsplit, hafter⟩ := find?_reverse_structure hs
      rcases List.mem_append.mp (hsplit ▸ hqstab) with hin | hin
      · have hlt := pairwise_middle_left hpw_stab hsplit q hin
        exact Version.lt_asymm hlt
      · rcases List.mem_cons.mp hin with he | he
        · rw [show q.1 = ver from congrArg Prod.fst he]
          exact Version.lt_irrefl ver
        · have := hafter q he
          rw [hpred_eq q] at this
          exact absurd hqs this
    | none =>
      rw [hs] at hfd
      have hfd2 : pres.reverse.find? pred = some (ver, sub) := by
        rw [← hfd]
        rfl
      -- the pick is a pre-release
      have hmem := List.mem_of_find?_eq_some hfd2
      rw [List.mem_reverse] at hmem
      have hvert := (List.mem_filter.mp hmem).2
      have hverp : ver.isPrerelease = true := by
        simpa using hvert
      have hqp : q.1.isPrerelease = true := by
        rw [hclass, hverp]
      have hqpres : q ∈ pres := by
        refine List.mem_filter.mpr ⟨hq, ?_⟩
        simp [hqp]
      obtain ⟨-, as, bs, hsplit, hafter⟩ := find?_reverse_structure hfd2
      rcases List.mem_append.mp (hsplit ▸ hqpres) with hin | hin
      · have hlt := pairwise_middle_left hpw_pres hsplit q hin
        exact Version.lt_asymm hlt
      · rcases List.mem_cons.mp hin with he | he
        · rw [show q.1 = ver from congrArg Prod.fst he]
          exact Version.lt_irrefl ver
        · have := hafter q he
          rw [hpred_eq q] at this
          exact absurd hqs this

/-- Witness for C2 at the ascending four-version registry and the caret range
on 1.0.0: the hypotheses hold and the pick is 1.2.0 (stable preferred,
greatest within range). -/
theorem c2_version_pick_witness :
    lookupA "p" regFour = some resFour ∧
    List.Pairwise (fun a b : Version × Subpackage => a.1.lt b.1 = true)
      (resFour.versions.filter (fun q => ¬ q.1.isPrerelease = true)) ∧
    List.Pairwise (fun a b : Version × Subpackage => a.1.lt b.1 = true)
      (resFour.versions.filter (fun q => q.1.isPrerelease)) ∧
    (∃ q ∈ resFour.versions,
      Range.satisfies (.caret (mkVer 1 0 0)) q.1 = true) ∧
    fetchDepSingle regFour reqCaret = some (mkVer 1 2 0, basePkg "p") ∧
    (∃ ver sub,
      fetchDepSingle regFour ⟨"p", .range (.caret (mkVer 1 0 0)), false⟩ =
        some (ver, sub) ∧
      Range.satisfies (.caret (mkVer 1 0 0)) ver = true ∧
      (ver, sub) ∈ resFour.versions ∧
      ((∃ q ∈ resFour.versions,
          Range.satisfies (.caret (mkVer 1 0 0)) q.1 = true ∧ q.1.pre = []) →
        ver.pre = []) ∧
      (∀ q ∈ resFour.versions,
        Range.satisfies (.caret (mkVer 1 0 0)) q.1 = true →
        q.1.isPrerelease = ver.isPrerelease → ver.lt q.1 = false)) :=
  ⟨by decide, by decide, by decide, by decide, by decide,
    c2_version_pick regFour "p" (.caret (mkVer 1 0 0)) resFour
      (by decide) (by decide) (by decide) (by decide)⟩

/-- Counterexample for C2: on the registry listing 1.2.0 before 1.0.0, the
caret range on 1.0.0 picks 1.0.0 (the last matching entry in insertion
order) although the matching version 1.2.0 is strictly greater, so the pick
is not the greatest matching version in general. -/
theorem c2_counterexample :
    fetchDepSingle regDesc reqCaret = some (mkVer 1 0 0, basePkg "p") ∧
    (mkVer 1 2 0, basePkg "p") ∈ resDesc.versions ∧
    Range.satisfies (.caret (mkVer 1 0 0)) (mkVer 1 2 0) = true ∧
    (mkVer 1 0 0).lt (mkVer 1 2 0) = true := by
  exact ⟨by decide, by decide, by decide, by decide⟩

theorem resolveLoop_self_loop (fs : List String → Option SymTarget)
    (n : String) (hfs : fs [n] = some ⟨false, [PComp.normal n]⟩) :
    ∀ k, resolveLoop fs k [PComp.normal n] = SRes.err ScopedErr.tooManyLinks := by
  have hwalk : walkComps fs [PComp.normal n] [] = StepOut.restart [PComp.normal n] := by
    simp [walkComps, hfs]
  intro k
  induction k with
  | zero => simp [resolveLoop, hwalk]
  | succ m ih => simp [resolveLoop, hwalk, ih]

/-- Claim C3 (amended): a successful scoped_join returns the root extended by
the resolved relative subpath, so the result never escapes the root; a parent
component pops one subpath component and popping the empty subpath is a
no-op; the claimed example results are however root/etc/passwd and root/out
(still under the root), not the bare root; and a self-referential symlink
under the root exhausts the 255-expansion budget with the too-many-links
error. -/
theorem c3_scoped_join (root : List String)
    (fs : List String → Option SymTarget) :
    (∀ comps res, scopedJoin root fs comps = SRes.ok res →
      ∃ sub, res = root ++ sub ∧ doScopedResolve fs comps = SRes.ok sub) ∧
    (∀ rest sub, walkComps fs (PComp.parentDir :: rest) sub =
      walkComps fs rest sub.dropLast) ∧
    (List.dropLast ([] : List String) = []) ∧
    (∀ n, fs [n] = some ⟨false, [PComp.normal n]⟩ →
      scopedJoin root fs [PComp.normal n] = SRes.err ScopedErr.tooManyLinks) := by
  refine ⟨?_, ?_, rfl, ?_⟩
  · intro comps res h
    unfold scopedJoin at h
    cases hres : doScopedResolve fs comps with
    | err e => rw [hres] at h; exact absurd h (by simp)
    | ok sub =>
      rw [hres] at h
      refine ⟨sub, ?_, rfl⟩
      have : SRes.ok (root ++ sub) = SRes.ok res := h
      cases this
      rfl
  · intro rest sub
    rfl
  · intro n hfs
    unfold scopedJoin doScopedResolve
    rw [resolveLoop_self_loop fs n hfs 255]

/-- Witness for C3: the dot-dot traversal resolves under the root, and the
self-loop symlink errors out. -/
theorem c3_scoped_join_witness :
    (∃ sub, (["root", "etc", "passwd"] : List String) = ["root"] ++ sub ∧
      doScopedResolve fsEmpty [PComp.parentDir, PComp.parentDir,
        PComp.normal "etc", PComp.normal "passwd"] = SRes.ok sub) ∧
    scopedJoin ["root"] fsLoop [PComp.normal "a"] =
      SRes.err ScopedErr.tooManyLinks :=
  ⟨(c3_scoped_join ["root"] fsEmpty).1
      [PComp.parentDir, PComp.parentDir, PComp.normal "etc", PComp.normal "passwd"]
      ["root", "etc", "passwd"] (by decide),
   (c3_scoped_join ["root"] fsLoop).2.2.2 "a" (by decide)⟩

/-- Counterexample for C3: on a symlink-free filesystem the two claimed
inputs resolve to root/etc/passwd and root/out, not to the bare root as the
claim states. -/
theorem c3_counterexample :
    scopedJoin ["root"] fsEmpty
      [PComp.parentDir, PComp.parentDir, PComp.normal "etc",
        PComp.normal "passwd"] = SRes.ok ["root", "etc", "passwd"] ∧
    scopedJoin ["root"] fsEmpty
      [PComp.normal "sub", PComp.parentDir, PComp.parentDir,
        PComp.normal "out"] = SRes.ok ["root", "out"] ∧
    ¬ (["root", "etc", "passwd"] : List String) = ["root"] ∧
    ¬ (["root", "out"] : List String) = ["root"] := by
  exact ⟨by decide, by decide, by decide, by decide⟩

theorem mem_insertA {α β : Type _} [DecidableEq α] {p : α × β} {k : α} {v : β} :
    ∀ {l : List (α × β)}, p ∈ insertA l k v → p = (k, v) ∨ p ∈ l := by
  intro l
  induction l with
  | nil =>
    intro h
    simp [insertA] at h
    exact Or.inl h
  | cons q rest ih =>
    intro h
    unfold insertA at h
    split_ifs at h with hk
    · rcases List.mem_cons.mp h with he | he
      · exact Or.inl he
      · exact Or.inr (List.mem_cons_of_mem q he)
    · rcases List.mem_cons.mp h with he | he
      · exact Or.inr (he ▸ List.mem_cons_self q rest)
      · rcases ih he with h2 | h2
        · exact Or.inl h2
        · exact Or.inr (List.mem_cons_of_mem q h2)

theorem mem_keys_insertA {α β : Type _} [DecidableEq α] {nm k : α} {v : β} :
    ∀ {l : List (α × β)},
      nm ∈ (insertA l k v).map Prod.fst ↔ nm = k ∨ nm ∈ l.map Prod.fst := by
  intro l
  induction l with
  | nil => simp [insertA]
  | cons q rest ih =>
    unfold insertA
    split_ifs with hk
    · subst hk
      simp
    · simp only [List.map_cons, List.mem_cons, ih]
      tauto

theorem lookupA_insertA_self {α β : Type _} [DecidableEq α] (k : α) (v : β) :
    ∀ (l : List (α × β)), lookupA k (insertA l k v) = some v := by
  intro l
  induction l with
  | nil => simp [insertA, lookupA]
  | cons q rest ih =>
    unfold insertA
    split_ifs with hk
    · simp [lookupA]
    · simp only [lookupA]
      rw [if_neg hk]
      exact ih

theorem lookupA_insertA_ne {α β : Type _} [DecidableEq α] {nm k : α} (v : β)
    (hne : nm ≠ k) :
    ∀ (l : List (α × β)), lookupA nm (insertA l k v) = lookupA nm l := by
  intro l
  induction l with
  | nil =>
    simp [insertA, lookupA]
    intro he
    exact absurd he.symm hne
  | cons q rest ih =>
    unfold insertA
    split_ifs with hk
    · subst hk
      simp only [lookupA]
      rw [if_neg (fun hc => hne hc.symm), if_neg (fun hc => hne hc.symm)]
    · simp only [lookupA]
      split_ifs with hq
      · rfl
      · exact ih

theorem insertA_keys_nodup {α β : Type _} [DecidableEq α] (k : α) (v : β) :
    ∀ {l : List (α × β)}, (l.map Prod.fst).Nodup →
      ((insertA l k v).map Prod.fst).Nodup := by
  intro l
  induction l with
  | nil =>
    intro
    simp [insertA]
  | cons q rest ih =>
    intro hnd
    simp only [List.map_cons, List.nodup_cons] at hnd
    unfold insertA
    split_ifs with hk
    · simp only [List.map_cons, List.nodup_cons]
      exact ⟨hk ▸ hnd.1, hnd.2⟩
    · simp only [List.map_cons, List.nodup_cons]
      refine ⟨?_, ih hnd.2⟩
      intro hc
      rcases mem_keys_insertA.mp hc with he | he
      · exact hk he
      · exact hnd.1 he

theorem lookupA_of_mem_nodup {α β : Type _} [DecidableEq α] {k : α} {v : β} :
    ∀ {l : List (α × β)}, (l.map Prod.fst).Nodup → (k, v) ∈ l →
      lookupA k l = some v := by
  intro l
  induction l with
  | nil => intro _ h; simp at h
  | cons q rest ih =>
    intro hnd hm
    simp only [List.map_cons, List.nodup_cons] at hnd
    rcases List.mem_cons.mp hm with he | he
    · rw [← he]
      simp [lookupA]
    · simp only [lookupA]
      split_ifs with hq
      · exfalso
        apply hnd.1
        rw [hq]
        exact List.mem_map_of_mem Prod.fst he
      · exact ih hnd.2 he

theorem nodup_subset_dedup_length {α : Type _} [DecidableEq α]
    {l l2 : List α} (h : l.Nodup) (hs : ∀ x ∈ l, x ∈ l2) :
    l.length ≤ l2.dedup.length := by
  have h1 : l.toFinset.card = l.length := List.toFinset_card_of_nodup h
  have h2 : l2.toFinset.card = l2.dedup.length := List.card_toFinset l2
  have h3 : l.toFinset ⊆ l2.toFinset := by
    intro a ha
    rw [List.mem_toFinset] at ha ⊢
    exact hs a ha
  have := Finset.card_le_card h3
  omega

theorem collectChildren_err_mem {α : Type _} {e : BuildErr} :
    ∀ {l : List (BuildRes (Option α))}, collectChildren l = .err e →
      BuildRes.err e ∈ l := by
  intro l
  induction l with
  | nil => intro h; simp [collectChildren] at h
  | cons x rest ih =>
    intro h
    cases x with
    | err e2 =>
      simp only [collectChildren] at h
      cases h
      exact List.mem_cons_self _ _
    | ok o =>
      cases o with
      | none =>
        simp only [collectChildren] at h
        exact List.mem_cons_of_mem _ (ih h)
      | some t =>
        simp only [collectChildren] at h
        cases hr : collectChildren rest with
        | err e2 =>
          rw [hr] at h
          cases h
          exact List.mem_cons_of_mem _ (ih hr)
        | ok ts =>
          rw [hr] at h
          exact absurd h (by simp)

theorem collectChildren_ok_mem {α : Type _} :
    ∀ {l : List (BuildRes (Option α))} {ts : List α},
      collectChildren l = .ok ts → ∀ t ∈ ts, BuildRes.ok (some t) ∈ l := by
  intro l
  induction l with
  | nil =>
    intro ts h t ht
    simp only [collectChildren] at h
    cases h
    simp at ht
  | cons x rest ih =>
    intro ts h t ht
    cases x with
    | err e =>
      simp only [collectChildren] at h
      exact absurd h (by simp)
    | ok o =>
      cases o with
      | none =>
        simp only [collectChildren] at h
        exact List.mem_cons_of_mem _ (ih h t ht)
      | some t2 =>
        simp only [collectChildren] at h
        cases hr : collectChildren rest with
        | err e =>
          rw [hr] at h
          exact absurd h (by simp)
        | ok ts2 =>
          rw [hr] at h
          have : t2 :: ts2 = ts := by
            cases h
            rfl
          rw [← this] at ht
          rcases List.mem_cons.mp ht with he | he
          · rw [he]
            exact List.mem_cons_self _ _
          · exact List.mem_cons_of_mem _ (ih hr t he)

theorem collectChildren_keys_sublist {α β γ : Type _}
    (f : α → BuildRes (Option β)) (key : β → γ) (kf : α → γ) :
    ∀ (xs : List α), (∀ x ∈ xs, ∀ t, f x = .ok (some t) → key t = kf x) →
      ∀ (ts : List β), collectChildren (xs.map f) = .ok ts →
      (ts.map key).Sublist (xs.map kf) := by
  intro xs
  induction xs with
  | nil =>
    intro _ ts h
    simp only [List.map_nil, collectChildren] at h
    cases h
    simp
  | cons x rest ih =>
    intro hbound ts h
    simp only [List.map_cons] at h
    cases hx : f x with
    | err e =>
      rw [hx] at h
      simp only [collectChildren] at h
      exact absurd h (by simp)
    | ok o =>
      rw [hx] at h
      cases o with
      | none =>
        simp only [collectChildren] at h
        simp only [List.map_cons]
        exact List.Sublist.cons _
          (ih (fun y hy => hbound y (List.mem_cons_of_mem _ hy)) ts h)
      | some t =>
        simp only [collectChildren] at h
        cases hr : collectChildren (rest.map f) with
        | err e =>
          rw [hr] at h
          exact absurd h (by simp)
        | ok ts2 =>
          rw [hr] at h
          have he : t :: ts2 = ts := by
            cases h
            rfl
          rw [← he]
          simp only [List.map_cons]
          rw [hbound x (List.mem_cons_self _ _) t hx]
          exact List.Sublist.cons₂ _
            (ih (fun y hy => hbound y (List.mem_cons_of_mem _ hy)) ts2 hr)

theorem resolveReq_mem_values {g : GraphL} {req : DepReq}
    {p : VersionedSubpackage} (h : resolveReq g req = some p) :
    p ∈ graphValues g := by
  unfold resolveReq at h
  exact List.mem_map_of_mem (fun q => q.2) (lookupA_mem h)

theorem resolveChildren_no_fuel {g : GraphL} :
    ∀ {reqs : List DepReq}, resolveChildren g reqs ≠ .err BuildErr.fuelOut := by
  intro reqs
  induction reqs with
  | nil => simp [resolveChildren]
  | cons req rest ih =>
    simp only [resolveChildren]
    cases resolveReq g req with
    | none => simp
    | some pkg =>
      cases hr : resolveChildren g rest with
      | err e =>
        rw [hr] at ih
        simpa using ih
      | ok cs => simp

theorem resolveChildren_length {g : GraphL} :
    ∀ {reqs : List DepReq} {cs : List (VersionedSubpackage × Bool)},
      resolveChildren g reqs = .ok cs → cs.length = reqs.length := by
  intro reqs
  induction reqs with
  | nil =>
    intro cs h
    simp only [resolveChildren] at h
    cases h
    rfl
  | cons req rest ih =>
    intro cs h
    simp only [resolveChildren] at h
    cases hq : resolveReq g req with
    | none => rw [hq] at h; exact absurd h (by simp)
    | some pkg =>
      rw [hq] at h
      cases hr : resolveChildren g rest with
      | err e =>
        rw [hr] at h
        exact absurd h (by simp)
      | ok cs2 =>
        rw [hr] at h
        cases h
        simp [ih hr]

theorem resolveChildren_mem {g : GraphL} :
    ∀ {reqs : List DepReq} {cs : List (VersionedSubpackage × Bool)},
      resolveChildren g reqs = .ok cs →
      ∀ c ∈ cs, ∃ dep ∈ reqs, resolveReq g dep = some c.1 := by
  intro reqs
  induction reqs with
  | nil =>
    intro cs h c hc
    simp only [resolveChildren] at h
    cases h
    simp at hc
  | cons req rest ih =>
    intro cs h c hc
    simp only [resolveChildren] at h
    cases hq : resolveReq g req with
    | none => rw [hq] at h; exact absurd h (by simp)
    | some pkg =>
      rw [hq] at h
      cases hr : resolveChildren g rest with
      | err e =>
        rw [hr] at h
        exact absurd h (by simp)
      | ok cs2 =>
        rw [hr] at h
        have he : (pkg, req.optional) :: cs2 = cs := by
          cases h
          rfl
        rw [← he] at hc
        rcases List.mem_cons.mp hc with h2 | h2
        · exact ⟨req, List.mem_cons_self _ _, by rw [h2]; exact hq⟩
        · obtain ⟨dep, hd, hdr⟩ := ih hr c h2
          exact ⟨dep, List.mem_cons_of_mem _ hd, hdr⟩

theorem resolveChildren_complete {g : GraphL} :
    ∀ {reqs : List DepReq} {cs : List (VersionedSubpackage × Bool)},
      resolveChildren g reqs = .ok cs →
      ∀ dep ∈ reqs, ∃ c ∈ cs, resolveReq g dep = some c.1 := by
  intro reqs
  induction reqs with
  | nil =>
    intro cs h dep hd
    simp at hd
  | cons req rest ih =>
    intro cs h dep hd
    simp only [resolveChildren] at h
    cases hq : resolveReq g req with
    | none => rw [hq] at h; exact absurd h (by simp)
    | some pkg =>
      rw [hq] at h
      cases hr : resolveChildren g rest with
      | err e =>
        rw [hr] at h
        exact absurd h (by simp)
      | ok cs2 =>
        rw [hr] at h
        have he : (pkg, req.optional) :: cs2 = cs := by
          cases h
          rfl
        rcases List.mem_cons.mp hd with h2 | h2
        · subst h2
          exact ⟨(pkg, dep.optional), by rw [← he]; exact List.mem_cons_self _ _, hq⟩
        · obtain ⟨c, hc, hcr⟩ := ih hr dep h2
          exact ⟨c, by rw [← he]; exact List.mem_cons_of_mem _ hc, hcr⟩

theorem mem_insertA_eq_key {α β : Type _} [DecidableEq α] {p : α × β} {k : α}
    {v : β} {l : List (α × β)} (hnd : (l.map Prod.fst).Nodup)
    (hm : p ∈ insertA l k v) (hk : p.1 = k) : p = (k, v) := by
  have h1 : lookupA k (insertA l k v) = some v := lookupA_insertA_self k v l
  have h2 : lookupA p.1 (insertA l k v) = some p.2 :=
    lookupA_of_mem_nodup (insertA_keys_nodup k v hnd) hm
  rw [hk] at h2
  rw [h1] at h2
  have : p.2 = v := (Option.some.inj h2).symm
  cases p
  simp only at hk this
  rw [hk, this]

theorem foldl_insertA_mem {α β : Type _} [DecidableEq α] :
    ∀ {ps init : List (α × β)} {q},
      q ∈ ps.foldl (fun r p => insertA r p.1 p.2) init → q ∈ init ∨ q ∈ ps := by
  intro ps
  induction ps with
  | nil =>
    intro init q hq
    exact Or.inl hq
  | cons p rest ih =>
    intro init q hq
    simp only [List.foldl_cons] at hq
    rcases ih hq with h2 | h2
    · rcases mem_insertA h2 with he | he
      · right
        rw [he]
        exact List.mem_cons_self _ _
      · exact Or.inl he
    · exact Or.inr (List.mem_cons_of_mem _ h2)

theorem foldl_insertA_keys_nodup {α β : Type _} [DecidableEq α] :
    ∀ {ps init : List (α × β)}, (init.map Prod.fst).Nodup →
      ((ps.foldl (fun r p => insertA r p.1 p.2) init).map Prod.fst).Nodup := by
  intro ps
  induction ps with
  | nil => intro init h; exact h
  | cons p rest ih =>
    intro init h
    simp only [List.foldl_cons]
    exact ih (insertA_keys_nodup p.1 p.2 h)

theorem lookupA_foldl_insertA_not_mem {α β : Type _} [DecidableEq α] {k : α} :
    ∀ {ps init : List (α × β)}, k ∉ ps.map Prod.fst →
      lookupA k (ps.foldl (fun r p => insertA r p.1 p.2) init) = lookupA k init := by
  intro ps
  induction ps with
  | nil => intro init _; rfl
  | cons p rest ih =>
    intro init hk
    simp only [List.map_cons, List.mem_cons] at hk
    push_neg at hk
    simp only [List.foldl_cons]
    rw [ih hk.2, lookupA_insertA_ne p.2 hk.1]

theorem lookupA_foldl_insertA_mem {α β : Type _} [DecidableEq α] {k : α} {v : β} :
    ∀ {ps init : List (α × β)}, (ps.map Prod.fst).Nodup → (k, v) ∈ ps →
      lookupA k (ps.foldl (fun r p => insertA r p.1 p.2) init) = some v := by
  intro ps
  induction ps with
  | nil => intro init _ h; simp at h
  | cons p rest ih =>
    intro init hnd hm
    simp only [List.map_cons, List.nodup_cons] at hnd
    simp only [List.foldl_cons]
    rcases List.mem_cons.mp hm with he | he
    · have hk : k ∉ rest.map Prod.fst := by
        rw [← he] at hnd
        exact hnd.1
      rw [lookupA_foldl_insertA_not_mem hk, ← he, lookupA_insertA_self]
    · exact ih hnd.2 he

theorem foldl_max_le_start {α : Type _} (f : α → Nat) :
    ∀ (l : List α) (a : Nat), a ≤ l.foldl (fun acc x => Nat.max acc (f x)) a := by
  intro l
  induction l with
  | nil => intro a; exact Nat.le_refl a
  | cons x rest ih =>
    intro a
    exact le_trans (Nat.le_max_left a (f x)) (ih (Nat.max a (f x)))

theorem foldl_max_mem {α : Type _} (f : α → Nat) :
    ∀ {l : List α} (a : Nat) {x}, x ∈ l →
      f x ≤ l.foldl (fun acc y => Nat.max acc (f y)) a := by
  intro l
  induction l with
  | nil => intro a x hx; simp at hx
  | cons y rest ih =>
    intro a x hx
    rcases List.mem_cons.mp hx with he | he
    · subst he
      exact le_trans (Nat.le_max_right a (f x)) (foldl_max_le_start f rest _)
    · exact ih _ he

theorem maxChildCount_bound {g : GraphL} {p : VersionedSubpackage}
    (h : p ∈ graphValues g) : p.package.iterReqs.length ≤ maxChildCount g := by
  unfold graphValues at h
  obtain ⟨q, hq, he⟩ := List.mem_map.mp h
  have he2 : q.2 = p := he
  rw [← he2]
  exact foldl_max_mem (fun r => r.2.package.iterReqs.length) 0 hq

theorem buildTree_cycle_cut {g : GraphL} {os cpu : String}
    {exclude : List (String × Version)} {fuel : Nat} {pkg : VersionedSubpackage}
    {stack : List VersionedSubpackage} {opt : Bool} (h : pkg ∈ stack) :
    buildTree g os cpu exclude (fuel + 1) pkg stack opt = .ok none := by
  simp [buildTree, h]

theorem goodChildren_of_forall {g : GraphL} {exclude : List (String × Version)}
    {pkg : VersionedSubpackage} :
    ∀ {cs : List (String × DependencyTree)},
      (∀ c ∈ cs, ∃ dep ∈ pkg.package.iterReqs, ∃ p2 : VersionedSubpackage,
        resolveReq g dep = some p2 ∧ ¬ (p2.package.name, p2.version) ∈ exclude ∧
        c.1 = p2.package.name ∧ GoodTree g exclude p2 c.2) →
      GoodChildren g exclude pkg cs := by
  intro cs
  induction cs with
  | nil =>
    intro _
    simp only [GoodChildren]
  | cons c rest ih =>
    intro h
    simp only [GoodChildren]
    exact ⟨h c (List.mem_cons_self _ _),
      ih (fun c2 hc2 => h c2 (List.mem_cons_of_mem _ hc2))⟩

theorem buildTree_good {g : GraphL} {os cpu : String}
    {exclude : List (String × Version)} :
    ∀ {fuel : Nat} {pkg stack opt t},
      buildTree g os cpu exclude fuel pkg stack opt = .ok (some t) →
      GoodTree g exclude pkg t := by
  intro fuel
  induction fuel with
  | zero =>
    intro pkg stack opt t h
    simp only [buildTree] at h
    exact absurd h (by simp)
  | succ n ih =>
    intro pkg stack opt t h
    simp only [buildTree] at h
    split_ifs at h with h1 h2 h3
    · exact absurd h (by simp)
    · split at h
      · exact absurd h (by simp)
      · rename_i deps heq
        have ht : DependencyTree.node (mkDependency pkg)
            (deps.map (fun t => (t.root.name, t))) = t := by
          simp only [BuildRes.ok.injEq, Option.some.injEq] at h
          exact h
        rw [← ht]
        simp only [GoodTree]
        refine ⟨by trivial, goodChildren_of_forall ?_⟩
        intro c hc
        obtain ⟨d, hd, hde⟩ := List.mem_map.mp hc
        have hmem := collectChildren_ok_mem heq d hd
        obtain ⟨dep, hdep, hfd⟩ := List.mem_map.mp hmem
        refine ⟨dep, hdep, ?_⟩
        split at hfd
        · exact absurd hfd (by simp)
        · rename_i p2 hres
          split_ifs at hfd with hexcl
          · exact absurd hfd (by simp)
          · have hgood : GoodTree g exclude p2 d := ih hfd
            refine ⟨p2, hres, hexcl, ?_, ?_⟩
            · rw [← hde]
              cases d with
              | node r ch =>
                simp only [GoodTree] at hgood
                simp only [DependencyTree.root]
                rw [hgood.1]
                rfl
            · rw [← hde]
              exact hgood
    · exact absurd h (by simp)

theorem goodTree_root {g : GraphL} {exclude : List (String × Version)}
    {pkg : VersionedSubpackage} {t : DependencyTree}
    (h : GoodTree g exclude pkg t) : t.root = mkDependency pkg := by
  cases t with
  | node r ch =>
    simp only [GoodTree] at h
    exact h.1

theorem buildTree_fuel {g : GraphL} {os cpu : String}
    {exclude : List (String × Version)} :
    ∀ {fuel : Nat} {pkg stack opt},
      stack.Nodup → (∀ x ∈ stack, x ∈ graphValues g) → pkg ∈ graphValues g →
      (graphValues g).dedup.length + 1 ≤ fuel + stack.length →
      buildTree g os cpu exclude fuel pkg stack opt ≠ .err .fuelOut := by
  intro fuel
  induction fuel with
  | zero =>
    intro pkg stack opt hnd hsub hpkg hle
    exfalso
    have := nodup_subset_dedup_length hnd hsub
    omega
  | succ n ih =>
    intro pkg stack opt hnd hsub hpkg hle hcontra
    simp only [buildTree] at hcontra
    split_ifs at hcontra with h1 h2 h3
    · split at hcontra
      · rename_i e heq
        have he : e = .fuelOut := by
          simp only [BuildRes.err.injEq] at hcontra
          exact hcontra
        rw [he] at heq
        have hmem := collectChildren_err_mem heq
        obtain ⟨dep, hdep, hfd⟩ := List.mem_map.mp hmem
        split at hfd
        · exact absurd hfd (by simp)
        · rename_i p2 hres
          split_ifs at hfd with hexcl
          have hnd2 : (stack ++ [pkg]).Nodup := by
            rw [List.nodup_append]
            refine ⟨hnd, List.nodup_singleton _, ?_⟩
            intro a ha hb
            rw [List.mem_singleton] at hb
            exact h1 (hb ▸ ha)
          have hsub2 : ∀ x ∈ stack ++ [pkg], x ∈ graphValues g := by
            intro x hx
            rcases List.mem_append.mp hx with hx | hx
            · exact hsub x hx
            · rw [List.mem_singleton] at hx
              exact hx ▸ hpkg
          have hp2 : p2 ∈ graphValues g := resolveReq_mem_values hres
          have hle2 : (graphValues g).dedup.length + 1 ≤ n + (stack ++ [pkg]).length := by
            simp only [List.length_append, List.length_singleton]
            omega
          exact ih hnd2 hsub2 hp2 hle2 hfd
      · exact absurd hcontra (by simp)
    · exact absurd hcontra (by simp)

theorem bfsFlat_sound {g : GraphL} (R : VersionedSubpackage → Prop)
    (hclosed : ∀ u, R u → ∀ dep ∈ u.package.iterReqs, ∀ p2 : VersionedSubpackage,
      resolveReq g dep = some p2 → R p2) :
    ∀ {fuel : Nat} {flat isOpt edge flat2 isOpt2},
      bfsFlat g fuel flat isOpt edge = .ok (flat2, isOpt2) →
      (∀ x ∈ flat, R x) → (∀ x ∈ edge, R x) →
      ∀ x ∈ flat2, R x := by
  intro fuel
  induction fuel with
  | zero =>
    intro flat isOpt edge flat2 isOpt2 h _ _
    simp [bfsFlat] at h
  | succ n ih =>
    intro flat isOpt edge flat2 isOpt2 h hflat hedge
    cases edge with
    | nil =>
      simp only [bfsFlat] at h
      have he : flat = flat2 := by
        simp only [BuildRes.ok.injEq, Prod.mk.injEq] at h
        exact h.1
      rw [← he]
      exact hflat
    | cons next rest =>
      simp only [bfsFlat] at h
      split_ifs at h with h1
      · exact ih h hflat (fun x hx => hedge x (List.mem_cons_of_mem _ hx))
      · split at h
        · exact absurd h (by simp)
        · rename_i cs hcs
          refine ih h ?_ ?_
          · intro x hx
            rcases List.mem_append.mp hx with hx | hx
            · exact hflat x hx
            · rw [List.mem_singleton] at hx
              exact hx ▸ hedge next (List.mem_cons_self _ _)
          · intro x hx
            rcases List.mem_append.mp hx with hx | hx
            · exact hedge x (List.mem_cons_of_mem _ hx)
            · obtain ⟨c, hc, hce⟩ := List.mem_map.mp hx
              obtain ⟨dep, hdep, hdr⟩ := resolveChildren_mem hcs c hc
              exact hce ▸
                hclosed next (hedge next (List.mem_cons_self _ _)) dep hdep c.1 hdr

theorem bfsFlat_mem {g : GraphL} :
    ∀ {fuel : Nat} {flat isOpt edge flat2 isOpt2},
      bfsFlat g fuel flat isOpt edge = .ok (flat2, isOpt2) →
      ∀ x, x ∈ flat ∨ x ∈ edge → x ∈ flat2 := by
  intro fuel
  induction fuel with
  | zero =>
    intro flat isOpt edge flat2 isOpt2 h
    simp [bfsFlat] at h
  | succ n ih =>
    intro flat isOpt edge flat2 isOpt2 h x hx
    cases edge with
    | nil =>
      simp only [bfsFlat] at h
      have he : flat = flat2 := by
        simp only [BuildRes.ok.injEq, Prod.mk.injEq] at h
        exact h.1
      rcases hx with hx | hx
      · exact he ▸ hx
      · simp at hx
    | cons next rest =>
      simp only [bfsFlat] at h
      split_ifs at h with h1
      · refine ih h x ?_
        rcases hx with hx | hx
        · exact Or.inl hx
        · rcases List.mem_cons.mp hx with he | he
          · exact Or.inl (he ▸ h1)
          · exact Or.inr he
      · split at h
        · exact absurd h (by simp)
        · rename_i cs hcs
          refine ih h x ?_
          rcases hx with hx | hx
          · exact Or.inl (List.mem_append_left _ hx)
          · rcases List.mem_cons.mp hx with he | he
            · exact Or.inl (List.mem_append_right _ (he ▸ List.mem_singleton_self next))
            · exact Or.inr (List.mem_append_left _ he)

theorem bfsFlat_closed {g : GraphL} :
    ∀ {fuel : Nat} {flat isOpt edge flat2 isOpt2},
      bfsFlat g fuel flat isOpt edge = .ok (flat2, isOpt2) →
      (∀ x ∈ flat, ∀ dep ∈ x.package.iterReqs, ∀ p2 : VersionedSubpackage,
        resolveReq g dep = some p2 → p2 ∈ flat ∨ p2 ∈ edge) →
      ∀ x ∈ flat2, ∀ dep ∈ x.package.iterReqs, ∀ p2 : VersionedSubpackage,
        resolveReq g dep = some p2 → p2 ∈ flat2 := by
  intro fuel
  induction fuel with
  | zero =>
    intro flat isOpt edge flat2 isOpt2 h
    simp [bfsFlat] at h
  | succ n ih =>
    intro flat isOpt edge flat2 isOpt2 h hinv
    cases edge with
    | nil =>
      simp only [bfsFlat] at h
      have he : flat = flat2 := by
        simp only [BuildRes.ok.injEq, Prod.mk.injEq] at h
        exact h.1
      intro x hx dep hdep p2 hp2
      rcases hinv x (he ▸ hx) dep hdep p2 hp2 with h2 | h2
      · exact he ▸ h2
      · simp at h2
    | cons next rest =>
      simp only [bfsFlat] at h
      split_ifs at h with h1
      · refine ih h ?_
        intro x hx dep hdep p2 hp2
        rcases hinv x hx dep hdep p2 hp2 with h2 | h2
        · exact Or.inl h2
        · rcases List.mem_cons.mp h2 with he | he
          · exact Or.inl (he ▸ h1)
          · exact Or.inr he
      · split at h
        · exact absurd h (by simp)
        · rename_i cs hcs
          refine ih h ?_
          intro x hx dep hdep p2 hp2
          rcases List.mem_append.mp hx with hx | hx
          · rcases hinv x hx dep hdep p2 hp2 with h2 | h2
            · exact Or.inl (List.mem_append_left _ h2)
            · rcases List.mem_cons.mp h2 with he | he
              · exact Or.inl (List.mem_append_right _ (he ▸ List.mem_singleton_self next))
              · exact Or.inr (List.mem_append_left _ he)
          · rw [List.mem_singleton] at hx
            subst hx
            obtain ⟨c, hc, hcr⟩ := resolveChildren_complete hcs dep hdep
            have hce : c.1 = p2 := by
              rw [hcr] at hp2
              exact Option.some.inj hp2
            refine Or.inr (List.mem_append_right _ ?_)
            exact hce ▸ List.mem_map_of_mem (fun c => c.1) hc

theorem bfsFlat_nodup {g : GraphL} :
    ∀ {fuel : Nat} {flat isOpt edge flat2 isOpt2},
      bfsFlat g fuel flat isOpt edge = .ok (flat2, isOpt2) →
      flat.Nodup → flat2.Nodup := by
  intro fuel
  induction fuel with
  | zero =>
    intro flat isOpt edge flat2 isOpt2 h
    simp [bfsFlat] at h
  | succ n ih =>
    intro flat isOpt edge flat2 isOpt2 h hnd
    cases edge with
    | nil =>
      simp only [bfsFlat] at h
      have he : flat = flat2 := by
        simp only [BuildRes.ok.injEq, Prod.mk.injEq] at h
        exact h.1
      exact he ▸ hnd
    | cons next rest =>
      simp only [bfsFlat] at h
      split_ifs at h with h1
      · exact ih h hnd
      · split at h
        · exact absurd h (by simp)
        · rename_i cs hcs
          refine ih h ?_
          rw [List.nodup_append]
          refine ⟨hnd, List.nodup_singleton _, ?_⟩
          intro a ha hb
          rw [List.mem_singleton] at hb
          exact h1 (hb ▸ ha)

theorem bfsFlat_fuel {g : GraphL} :
    ∀ {fuel : Nat} {flat isOpt edge},
      flat.Nodup → (∀ x ∈ flat, x ∈ graphValues g) →
      (∀ x ∈ edge, x ∈ graphValues g) →
      edge.length +
        ((graphValues g).dedup.length - flat.length) * (maxChildCount g + 1) + 1 ≤
        fuel →
      bfsFlat g fuel flat isOpt edge ≠ .err .fuelOut := by
  intro fuel
  induction fuel with
  | zero =>
    intro flat isOpt edge _ _ _ hle
    exact absurd hle (Nat.not_succ_le_zero _)
  | succ n ih =>
    intro flat isOpt edge hnd hsub hedge hle hcontra
    cases edge with
    | nil => simp [bfsFlat] at hcontra
    | cons next rest =>
      simp only [bfsFlat] at hcontra
      split_ifs at hcontra with h1
      · refine ih hnd hsub (fun x hx => hedge x (List.mem_cons_of_mem _ hx)) ?_ hcontra
        obtain ⟨P, hP⟩ : ∃ P,
            ((graphValues g).dedup.length - flat.length) * (maxChildCount g + 1) = P :=
          ⟨_, rfl⟩
        simp only [List.length_cons] at hle
        rw [hP] at hle ⊢
        omega
      · split at hcontra
        · rename_i e heq
          have he : e = .fuelOut := by
            simp only [BuildRes.err.injEq] at hcontra
            exact hcontra
          rw [he] at heq
          exact resolveChildren_no_fuel heq
        · rename_i cs hcs
          have hnext : next ∈ graphValues g := hedge next (List.mem_cons_self _ _)
          have hnd2 : (flat ++ [next]).Nodup := by
            rw [List.nodup_append]
            refine ⟨hnd, List.nodup_singleton _, ?_⟩
            intro a ha hb
            rw [List.mem_singleton] at hb
            exact h1 (hb ▸ ha)
          have hsub2 : ∀ x ∈ flat ++ [next], x ∈ graphValues g := by
            intro x hx
            rcases List.mem_append.mp hx with hx | hx
            · exact hsub x hx
            · rw [List.mem_singleton] at hx
              exact hx ▸ hnext
          have hedge2 : ∀ x ∈ rest ++ cs.map (fun c => c.1), x ∈ graphValues g := by
            intro x hx
            rcases List.mem_append.mp hx with hx | hx
            · exact hedge x (List.mem_cons_of_mem _ hx)
            · obtain ⟨c, hc, hce⟩ := List.mem_map.mp hx
              obtain ⟨dep, _, hdr⟩ := resolveChildren_mem hcs c hc
              exact hce ▸ resolveReq_mem_values hdr
          refine ih hnd2 hsub2 hedge2 ?_ hcontra
          have hflt : flat.length + 1 ≤ (graphValues g).dedup.length := by
            have h9 := nodup_subset_dedup_length hnd2 hsub2
            simp only [List.length_append, List.length_singleton] at h9
            exact h9
          have hcl : cs.length ≤ maxChildCount g := by
            rw [resolveChildren_length hcs]
            exact maxChildCount_bound hnext
          have hsplit : ((graphValues g).dedup.length - flat.length) *
              (maxChildCount g + 1) =
              ((graphValues g).dedup.length - (flat.length + 1)) *
                (maxChildCount g + 1) + (maxChildCount g + 1) := by
            have h9 : (graphValues g).dedup.length - flat.length =
                ((graphValues g).dedup.length - (flat.length + 1)) + 1 := by omega
            rw [h9, Nat.succ_mul]
          simp only [List.length_cons] at hle
          rw [hsplit] at hle
          simp only [List.length_append, List.length_map, List.length_singleton]
          obtain ⟨P, hP⟩ : ∃ P,
              ((graphValues g).dedup.length - (flat.length + 1)) *
                (maxChildCount g + 1) = P := ⟨_, rfl⟩
          rw [hP] at hle ⊢
          omega

theorem rootReqsAcc_no_fuel {g : GraphL} :
    ∀ {roots : List DepReq} {reqs isOpt},
      rootReqsAcc g roots reqs isOpt ≠ .err .fuelOut := by
  intro roots
  induction roots with
  | nil =>
    intro reqs isOpt
    simp [rootReqsAcc]
  | cons req rest ih =>
    intro reqs isOpt
    simp only [rootReqsAcc]
    split
    · simp
    · exact ih

theorem rootReqsAcc_keys_nodup {g : GraphL} :
    ∀ {roots : List DepReq} {reqs isOpt reqs2 isOpt2},
      rootReqsAcc g roots reqs isOpt = .ok (reqs2, isOpt2) →
      (reqs.map Prod.fst).Nodup → (reqs2.map Prod.fst).Nodup := by
  intro roots
  induction roots with
  | nil =>
    intro reqs isOpt reqs2 isOpt2 h hnd
    simp only [rootReqsAcc, BuildRes.ok.injEq, Prod.mk.injEq] at h
    exact h.1 ▸ hnd
  | cons req rest ih =>
    intro reqs isOpt reqs2 isOpt2 h hnd
    simp only [rootReqsAcc] at h
    split at h
    · exact absurd h (by simp)
    · exact ih h (insertA_keys_nodup _ _ hnd)

theorem rootReqsAcc_mem {g : GraphL} :
    ∀ {roots : List DepReq} {reqs isOpt reqs2 isOpt2},
      rootReqsAcc g roots reqs isOpt = .ok (reqs2, isOpt2) →
      ∀ p ∈ reqs2, p ∈ reqs ∨
        ∃ req ∈ roots, req.name = p.1 ∧ resolveReq g req = some p.2 := by
  intro roots
  induction roots with
  | nil =>
    intro reqs isOpt reqs2 isOpt2 h p hp
    simp only [rootReqsAcc, BuildRes.ok.injEq, Prod.mk.injEq] at h
    exact Or.inl (h.1 ▸ hp)
  | cons req rest ih =>
    intro reqs isOpt reqs2 isOpt2 h p hp
    simp only [rootReqsAcc] at h
    split at h
    · exact absurd h (by simp)
    · rename_i pkg heq
      rcases ih h p hp with h2 | h2
      · rcases mem_insertA h2 with he | he
        · subst he
          exact Or.inr ⟨req, List.mem_cons_self _ _, rfl, heq⟩
        · exact Or.inl he
      · obtain ⟨r, hr, hrn, hrr⟩ := h2
        exact Or.inr ⟨r, List.mem_cons_of_mem _ hr, hrn, hrr⟩

theorem rootReqsAcc_resolves {g : GraphL} :
    ∀ {roots : List DepReq} {reqs isOpt reqs2 isOpt2},
      rootReqsAcc g roots reqs isOpt = .ok (reqs2, isOpt2) →
      ∀ req ∈ roots, ∃ pkg, resolveReq g req = some pkg := by
  intro roots
  induction roots with
  | nil =>
    intro reqs isOpt reqs2 isOpt2 _ req hreq
    simp at hreq
  | cons req0 rest ih =>
    intro reqs isOpt reqs2 isOpt2 h req hreq
    simp only [rootReqsAcc] at h
    split at h
    · exact absurd h (by simp)
    · rename_i pkg heq
      rcases List.mem_cons.mp hreq with he | he
      · exact ⟨pkg, he ▸ heq⟩
      · exact ih h req he

theorem rootReqsAcc_lookup_frozen {g : GraphL} {k : String} :
    ∀ {roots : List DepReq} {reqs isOpt reqs2 isOpt2},
      rootReqsAcc g roots reqs isOpt = .ok (reqs2, isOpt2) →
      k ∉ roots.map (fun r => r.name) →
      lookupA k reqs2 = lookupA k reqs := by
  intro roots
  induction roots with
  | nil =>
    intro reqs isOpt reqs2 isOpt2 h _
    simp only [rootReqsAcc, BuildRes.ok.injEq, Prod.mk.injEq] at h
    rw [h.1]
  | cons req rest ih =>
    intro reqs isOpt reqs2 isOpt2 h hk
    simp only [List.map_cons, List.mem_cons] at hk
    push_neg at hk
    simp only [rootReqsAcc] at h
    split at h
    · exact absurd h (by simp)
    · rename_i pkg heq
      rw [ih h hk.2, lookupA_insertA_ne pkg hk.1]

theorem rootReqsAcc_lookup {g : GraphL} :
    ∀ {roots : List DepReq} {reqs isOpt reqs2 isOpt2},
      rootReqsAcc g roots reqs isOpt = .ok (reqs2, isOpt2) →
      (roots.map (fun r => r.name)).Nodup →
      ∀ req ∈ roots, ∃ pkg, resolveReq g req = some pkg ∧
        lookupA req.name reqs2 = some pkg := by
  intro roots
  induction roots with
  | nil =>
    intro reqs isOpt reqs2 isOpt2 _ _ req hreq
    simp at hreq
  | cons req0 rest ih =>
    intro reqs isOpt reqs2 isOpt2 h hnd req hreq
    simp only [List.map_cons, List.nodup_cons] at hnd
    simp only [rootReqsAcc] at h
    split at h
    · exact absurd h (by simp)
    · rename_i pkg heq
      rcases List.mem_cons.mp hreq with he | he
      · subst he
        refine ⟨pkg, heq, ?_⟩
        rw [rootReqsAcc_lookup_frozen h hnd.1]
        exact lookupA_insertA_self _ _ _
      · exact ih h hnd.2 req he

theorem hoistStep_inv {pre : List VersionedSubpackage}
    {h : List (String × VersionedSubpackage)} {dep : VersionedSubpackage}
    (hinv : HoistInv pre h) : HoistInv (pre ++ [dep]) (hoistStep h dep) := by
  unfold HoistInv at hinv ⊢
  obtain ⟨hnd, hent, hcov⟩ := hinv
  unfold hoistStep
  split
  · rename_i prev heq
    split_ifs with hlt
    · refine ⟨insertA_keys_nodup _ _ hnd, ?_, ?_⟩
      · intro p hp
        by_cases hk : p.1 = dep.package.name
        · have hpe : p = (dep.package.name, dep) := mem_insertA_eq_key hnd hp hk
          subst hpe
          refine ⟨List.mem_append_right _ (List.mem_singleton_self _), rfl, ?_⟩
          intro w hw hwn
          rcases List.mem_append.mp hw with hw | hw
          · obtain ⟨_, _, hmax⟩ := hent (dep.package.name, prev) (lookupA_mem heq)
            by_contra hcon
            have hcon2 : dep.version.lt w.version = true := by
              cases hde : dep.version.lt w.version
              · exact absurd hde hcon
              · rfl
            have htr : prev.version.lt w.version = true := Version.lt_trans hlt hcon2
            rw [hmax w hw hwn] at htr
            exact Bool.noConfusion htr
          · rw [List.mem_singleton] at hw
            subst hw
            exact Version.lt_irrefl _
        · have hp2 : p ∈ h := by
            rcases mem_insertA hp with he | he
            · exfalso
              exact hk (by rw [he])
            · exact he
          obtain ⟨hq1, hq2, hq3⟩ := hent p hp2
          refine ⟨List.mem_append_left _ hq1, hq2, ?_⟩
          intro w hw hwn
          rcases List.mem_append.mp hw with hw | hw
          · exact hq3 w hw hwn
          · rw [List.mem_singleton] at hw
            subst hw
            exact absurd hwn.symm hk
      · intro w hw
        rcases List.mem_append.mp hw with hw | hw
        · exact mem_keys_insertA.mpr (Or.inr (hcov w hw))
        · rw [List.mem_singleton] at hw
          subst hw
          exact mem_keys_insertA.mpr (Or.inl rfl)
    · refine ⟨hnd, ?_, ?_⟩
      · intro p hp
        obtain ⟨hq1, hq2, hq3⟩ := hent p hp
        refine ⟨List.mem_append_left _ hq1, hq2, ?_⟩
        intro w hw hwn
        rcases List.mem_append.mp hw with hw | hw
        · exact hq3 w hw hwn
        · rw [List.mem_singleton] at hw
          rw [hw] at hwn ⊢
          have hl1 : lookupA p.1 h = some p.2 := lookupA_of_mem_nodup hnd hp
          rw [hwn] at heq
          have hpv : p.2 = prev := by
            rw [hl1] at heq
            exact Option.some.inj heq
          rw [hpv]
          cases hde : prev.version.lt dep.version
          · rfl
          · exact absurd hde hlt
      · intro w hw
        rcases List.mem_append.mp hw with hw | hw
        · exact hcov w hw
        · rw [List.mem_singleton] at hw
          subst hw
          exact List.mem_map_of_mem Prod.fst (lookupA_mem heq)
  · rename_i heq
    refine ⟨insertA_keys_nodup _ _ hnd, ?_, ?_⟩
    · intro p hp
      by_cases hk : p.1 = dep.package.name
      · have hpe : p = (dep.package.name, dep) := mem_insertA_eq_key hnd hp hk
        subst hpe
        refine ⟨List.mem_append_right _ (List.mem_singleton_self _), rfl, ?_⟩
        intro w hw hwn
        rcases List.mem_append.mp hw with hw | hw
        · exfalso
          have hcw := hcov w hw
          rw [hwn] at hcw
          exact (lookupA_eq_none.mp heq) hcw
        · rw [List.mem_singleton] at hw
          subst hw
          exact Version.lt_irrefl _
      · have hp2 : p ∈ h := by
          rcases mem_insertA hp with he | he
          · exfalso
            exact hk (by rw [he])
          · exact he
        obtain ⟨hq1, hq2, hq3⟩ := hent p hp2
        refine ⟨List.mem_append_left _ hq1, hq2, ?_⟩
        intro w hw hwn
        rcases List.mem_append.mp hw with hw | hw
        · exact hq3 w hw hwn
        · rw [List.mem_singleton] at hw
          subst hw
          exact absurd hwn.symm hk
    · intro w hw
      rcases List.mem_append.mp hw with hw | hw
      · exact mem_keys_insertA.mpr (Or.inr (hcov w hw))
      · rw [List.mem_singleton] at hw
        subst hw
        exact mem_keys_insertA.mpr (Or.inl rfl)

theorem foldl_hoistStep_inv :
    ∀ {rest pre : List VersionedSubpackage} {h},
      HoistInv pre h → HoistInv (pre ++ rest) (rest.foldl hoistStep h) := by
  intro rest
  induction rest with
  | nil =>
    intro pre h hinv
    simp only [List.append_nil, List.foldl_nil]
    exact hinv
  | cons d rest2 ih =>
    intro pre h hinv
    simp only [List.foldl_cons]
    rw [List.append_cons]
    exact ih (hoistStep_inv hinv)

theorem hoistFold_inv (flat : List VersionedSubpackage) :
    HoistInv flat (hoistFold flat) := by
  have h0 : HoistInv [] ([] : List (String × VersionedSubpackage)) := by
    unfold HoistInv
    refine ⟨List.nodup_nil, ?_, ?_⟩
    · intro p hp
      simp at hp
    · intro w hw
      simp at hw
  have h2 := @foldl_hoistStep_inv flat [] [] h0
  rw [List.nil_append] at h2
  exact h2

theorem buildTrees_no_fuel (g : GraphL) (os cpu : String) (roots : List DepReq) :
    buildTrees g os cpu roots ≠ .err .fuelOut := by
  intro hcontra
  simp only [buildTrees] at hcontra
  split at hcontra
  · rename_i e heq
    have he : e = .fuelOut := by
      simp only [BuildRes.err.injEq] at hcontra
      exact hcontra
    rw [he] at heq
    exact rootReqsAcc_no_fuel heq
  · rename_i reqs0 isOpt0 heq
    have hedge0 : ∀ x ∈ reqs0.map (fun p => p.2), x ∈ graphValues g := by
      intro x hx
      obtain ⟨p, hp, hpe⟩ := List.mem_map.mp hx
      rcases rootReqsAcc_mem heq p hp with h2 | h2
      · simp at h2
      · obtain ⟨req, _, _, hrr⟩ := h2
        exact hpe ▸ resolveReq_mem_values hrr
    split at hcontra
    · rename_i e heq2
      have he : e = .fuelOut := by
        simp only [BuildRes.err.injEq] at hcontra
        exact hcontra
      rw [he] at heq2
      refine bfsFlat_fuel List.nodup_nil ?_ hedge0 ?_ heq2
      · intro x hx
        simp at hx
      · obtain ⟨P, hP⟩ : ∃ P,
            ((graphValues g).dedup.length - 0) * (maxChildCount g + 1) = P := ⟨_, rfl⟩
        obtain ⟨Q, hQ⟩ : ∃ Q,
            ((graphValues g).dedup.length + 1) * (maxChildCount g + 1) = Q := ⟨_, rfl⟩
        have hmul : ((graphValues g).dedup.length - 0) * (maxChildCount g + 1) ≤
            ((graphValues g).dedup.length + 1) * (maxChildCount g + 1) :=
          Nat.mul_le_mul (by omega) (Nat.le_refl _)
        rw [hP, hQ] at hmul
        unfold bfsFuel
        simp only [List.length_nil]
        rw [hP, hQ]
        omega
    · rename_i flat isOpt heq2
      have hflatsub : ∀ x ∈ flat, x ∈ graphValues g :=
        bfsFlat_sound (fun x => x ∈ graphValues g)
          (fun u _ dep _ p2 hr => resolveReq_mem_values hr) heq2
          (by intro x hx; simp at hx) hedge0
      have hmem := collectChildren_err_mem hcontra
      obtain ⟨p, hp, hfp⟩ := List.mem_map.mp hmem
      split at hfp
      · exact absurd hfp (by simp)
      · rename_i opt hopt
        refine buildTree_fuel List.nodup_nil (by intro x hx; simp at hx) ?_ ?_ hfp
        · unfold finalReqs at hp
          have hval : p ∈ reqs0 → p.2 ∈ graphValues g := by
            intro h2
            rcases rootReqsAcc_mem heq p h2 with h3 | h3
            · simp at h3
            · obtain ⟨req, _, _, hrr⟩ := h3
              exact resolveReq_mem_values hrr
          rcases foldl_insertA_mem hp with h2 | h2
          · exact hval h2
          · unfold hoistedMap at h2
            rcases foldl_insertA_mem h2 with h4 | h4
            · have hinv := hoistFold_inv flat
              unfold HoistInv at hinv
              exact hflatsub p.2 (hinv.2.1 p h4).1
            · exact hval h4
        · unfold treeFuel
          simp
/-- C8 counterexample: for the cyclic graph A to B to A with root request A,
build_trees does succeed, but its output is two top-level childless trees A
and B (B is hoisted, so the A tree's B child is excluded at the top level),
not a single tree with A at the root and B as its child; the claimed nested
shape arises only from build_tree run with an empty exclusion set, where the
cycle guard elides the A grandchild under B. -/
theorem c8_counterexample :
    (match buildTrees gCycle "linux" "x64" [reqCycA] with
     | .ok ts => ts.map (fun t => (t.root.name, t.children.map Prod.fst))
     | .err _ => []) = [("A", []), ("B", [])] ∧
    (match buildTree gCycle "linux" "x64" [] 3 ⟨subCycA, mkVer 1 0 0⟩ [] false with
     | .ok (some t) =>
         some (t.root.name, t.children.map (fun c => (c.1, c.2.children.map Prod.fst)))
     | _ => none) = some ("A", [("B", [])]) := by
  constructor
  · decide
  · decide

/-- C8: tree building never runs out of recursion on any graph, cyclic ones
included: build_trees never reports the fuel-exhaustion error of the embedded
loops, and a package that is already on the current ancestor stack cuts its
subtree, returning an empty result rather than an error. -/
theorem c8_cycle_tolerance (g : GraphL) (os cpu : String) (roots : List DepReq) :
    buildTrees g os cpu roots ≠ BuildRes.err BuildErr.fuelOut ∧
    (∀ (exclude : List (String × Version)) (fuel : Nat) (pkg : VersionedSubpackage)
      (stack : List VersionedSubpackage) (opt : Bool), pkg ∈ stack →
      buildTree g os cpu exclude (fuel + 1) pkg stack opt = BuildRes.ok none) := by
  constructor
  · exact buildTrees_no_fuel g os cpu roots
  · intro exclude fuel pkg stack opt hmem
    exact buildTree_cycle_cut hmem

/-- Witness for C8: on the cyclic two-package graph, re-entering package A
while A is on the ancestor stack cuts the subtree. -/
theorem c8_cycle_tolerance_witness :
    buildTree gCycle "linux" "x64" [] 3 ⟨subCycA, mkVer 1 0 0⟩
      [⟨subCycA, mkVer 1 0 0⟩] false = BuildRes.ok none :=
  (c8_cycle_tolerance gCycle "linux" "x64" [reqCycA]).2 [] 2 ⟨subCycA, mkVer 1 0 0⟩
    [⟨subCycA, mkVer 1 0 0⟩] false (by decide)

/-- C4: in the forest returned by build_trees (on a graph whose entries pin a
package of the request's name, with distinct root-request names), every
package name has at most one top-level tree; a tree matching a root request's
name carries that request's resolved version; any other tree's name and
version are those of a reachable package that is maximal among the reachable
occurrences of its name; and there is one exclusion set that contains the
(name, version) of every top-level tree and under which every tree is
well-formed, so a child node never carries an excluded (name, version) pair,
meaning non-hoisted versions appear only nested under a package that
requested them. -/
theorem c4_hoisting (g : GraphL) (os cpu : String) (roots : List DepReq)
    (trees : List DependencyTree)
    (hwf : ∀ p ∈ g, p.2.package.name = p.1.name)
    (hroots : (roots.map (fun r => r.name)).Nodup)
    (h : buildTrees g os cpu roots = BuildRes.ok trees) :
    (trees.map (fun t => t.root.name)).Nodup ∧
    (∀ t ∈ trees, ∀ req ∈ roots, req.name = t.root.name →
      ∃ pkg, resolveReq g req = some pkg ∧ t.root.version = pkg.version) ∧
    (∀ t ∈ trees, (∀ req ∈ roots, req.name ≠ t.root.name) →
      (∃ w : VersionedSubpackage, Reach g roots w ∧ w.package.name = t.root.name ∧
        w.version = t.root.version) ∧
      (∀ w : VersionedSubpackage, Reach g roots w → w.package.name = t.root.name →
        t.root.version.lt w.version = false)) ∧
    (∃ excl : List (String × Version),
      (∀ t ∈ trees, (t.root.name, t.root.version) ∈ excl) ∧
      (∀ t ∈ trees, ∃ pkg : VersionedSubpackage, t.root = mkDependency pkg ∧
        GoodTree g excl pkg t)) := by
  simp only [buildTrees] at h
  split at h
  · exact absurd h (by simp)
  · rename_i reqs0 isOpt0 heq
    split at h
    · exact absurd h (by simp)
    · rename_i flat isOpt heq2
      have hreqs0nd : (reqs0.map Prod.fst).Nodup :=
        rootReqsAcc_keys_nodup heq (by simp)
      have hnamed0 : ∀ p ∈ reqs0, p.2.package.name = p.1 := by
        intro p hp
        rcases rootReqsAcc_mem heq p hp with h2 | h2
        · simp at h2
        · obtain ⟨req, _, hname, hrr⟩ := h2
          have hrr2 : lookupA req g = some p.2 := hrr
          have hg := hwf (req, p.2) (lookupA_mem hrr2)
          rw [← hname]
          exact hg
      have hedge0 : ∀ x ∈ reqs0.map (fun p => p.2), x ∈ graphValues g := by
        intro x hx
        obtain ⟨p, hp, hpe⟩ := List.mem_map.mp hx
        rcases rootReqsAcc_mem heq p hp with h2 | h2
        · simp at h2
        · obtain ⟨req, _, _, hrr⟩ := h2
          exact hpe ▸ resolveReq_mem_values hrr
      have hReachflat : ∀ x ∈ flat, Reach g roots x := by
        refine bfsFlat_sound (Reach g roots) ?_ heq2 ?_ ?_
        · intro u hu dep hdep p2 hp2
          exact Reach.child u dep p2 hu hdep hp2
        · intro x hx
          simp at hx
        · intro x hx
          obtain ⟨p, hp, hpe⟩ := List.mem_map.mp hx
          rcases rootReqsAcc_mem heq p hp with h2 | h2
          · simp at h2
          · obtain ⟨req, hreq, _, hrr⟩ := h2
            exact hpe ▸ Reach.root req p.2 hreq hrr
      have hflatReach : ∀ w : VersionedSubpackage, Reach g roots w → w ∈ flat := by
        intro w hw
        induction hw with
        | root req pkg hreq hres =>
          obtain ⟨pkg2, hres2, hlk⟩ := rootReqsAcc_lookup heq hroots req hreq
          have hpe : pkg2 = pkg := by
            rw [hres2] at hres
            exact Option.some.inj hres
          subst hpe
          have hin : (req.name, pkg2) ∈ reqs0 := lookupA_mem hlk
          exact bfsFlat_mem heq2 pkg2
            (Or.inr (List.mem_map_of_mem (fun p => p.2) hin))
        | child u dep pkg hu hdep hres ihu =>
          exact bfsFlat_closed heq2 (by intro x hx; simp at hx) u ihu dep hdep pkg hres
      have hH := hoistFold_inv flat
      unfold HoistInv at hH
      obtain ⟨hh0nd, hh0ent, hh0cov⟩ := hH
      have hhoistnd : ((hoistedMap reqs0 flat).map Prod.fst).Nodup := by
        unfold hoistedMap
        exact foldl_insertA_keys_nodup hh0nd
      have hreqsFnd : ((finalReqs reqs0 flat).map Prod.fst).Nodup := by
        unfold finalReqs
        exact foldl_insertA_keys_nodup hreqs0nd
      have hnamedH : ∀ p ∈ hoistedMap reqs0 flat, p.2.package.name = p.1 := by
        intro p hp
        unfold hoistedMap at hp
        rcases foldl_insertA_mem hp with h2 | h2
        · exact (hh0ent p h2).2.1
        · exact hnamed0 p h2
      have hnamedF : ∀ p ∈ finalReqs reqs0 flat, p.2.package.name = p.1 := by
        intro p hp
        unfold finalReqs at hp
        rcases foldl_insertA_mem hp with h2 | h2
        · exact hnamed0 p h2
        · exact hnamedH p h2
      have hkeys0 : ∀ p ∈ reqs0, ∃ req ∈ roots, req.name = p.1 := by
        intro p hp
        rcases rootReqsAcc_mem heq p hp with h2 | h2
        · simp at h2
        · obtain ⟨req, hr, hn, _⟩ := h2
          exact ⟨req, hr, hn⟩
      have hrootF : ∀ req ∈ roots, ∃ pkg, resolveReq g req = some pkg ∧
          lookupA req.name (finalReqs reqs0 flat) = some pkg := by
        intro req hreq
        obtain ⟨pkg, hres, hlk⟩ := rootReqsAcc_lookup heq hroots req hreq
        have hin0 : (req.name, pkg) ∈ reqs0 := lookupA_mem hlk
        have hlkH : lookupA req.name (hoistedMap reqs0 flat) = some pkg := by
          unfold hoistedMap
          exact lookupA_foldl_insertA_mem hreqs0nd hin0
        have hinH : (req.name, pkg) ∈ hoistedMap reqs0 flat := lookupA_mem hlkH
        refine ⟨pkg, hres, ?_⟩
        unfold finalReqs
        exact lookupA_foldl_insertA_mem hhoistnd hinH
      have hFinH : ∀ p ∈ finalReqs reqs0 flat, (p.1, p.2) ∈ hoistedMap reqs0 flat := by
        intro p hp
        have hlkF : lookupA p.1 (finalReqs reqs0 flat) = some p.2 :=
          lookupA_of_mem_nodup hreqsFnd hp
        by_cases hkH : p.1 ∈ (hoistedMap reqs0 flat).map Prod.fst
        · obtain ⟨q, hq, hqe⟩ := List.mem_map.mp hkH
          have hlkH : lookupA p.1 (hoistedMap reqs0 flat) = some q.2 := by
            rw [← hqe]
            exact lookupA_of_mem_nodup hhoistnd hq
          have hinH : (p.1, q.2) ∈ hoistedMap reqs0 flat := lookupA_mem hlkH
          have hlkF2 : lookupA p.1 (finalReqs reqs0 flat) = some q.2 := by
            unfold finalReqs
            exact lookupA_foldl_insertA_mem hhoistnd hinH
          have hq2 : p.2 = q.2 := by
            rw [hlkF] at hlkF2
            exact Option.some.inj hlkF2
          exact hq2 ▸ hinH
        · have hlk0 : lookupA p.1 (finalReqs reqs0 flat) = lookupA p.1 reqs0 := by
            unfold finalReqs
            exact lookupA_foldl_insertA_not_mem hkH
          rw [hlk0] at hlkF
          have hin0 : (p.1, p.2) ∈ reqs0 := lookupA_mem hlkF
          exfalso
          apply hkH
          have hlkH : lookupA p.1 (hoistedMap reqs0 flat) = some p.2 := by
            unfold hoistedMap
            exact lookupA_foldl_insertA_mem hreqs0nd hin0
          exact List.mem_map_of_mem Prod.fst (lookupA_mem hlkH)
      have hextract : ∀ t ∈ trees, ∃ p ∈ finalReqs reqs0 flat,
          t.root = mkDependency p.2 ∧ GoodTree g (excludePairs reqs0 flat) p.2 t := by
        intro t ht
        have hmem := collectChildren_ok_mem h t ht
        obtain ⟨p, hp, hfp⟩ := List.mem_map.mp hmem
        refine ⟨p, hp, ?_⟩
        split at hfp
        · exact absurd hfp (by simp)
        · rename_i opt hopt
          have hg := buildTree_good hfp
          exact ⟨goodTree_root hg, hg⟩
      refine ⟨?_, ?_, ?_, ?_⟩
      · have hnames : (trees.map (fun t => t.root.name)).Sublist
            ((finalReqs reqs0 flat).map Prod.fst) := by
          refine collectChildren_keys_sublist _ (fun t => t.root.name) Prod.fst
            (finalReqs reqs0 flat) ?_ trees h
          intro p hp t hfp
          split at hfp
          · exact absurd hfp (by simp)
          · rename_i opt hopt
            show t.root.name = p.1
            rw [goodTree_root (buildTree_good hfp)]
            exact hnamedF p hp
        exact hreqsFnd.sublist hnames
      · intro t ht req hreq hn
        obtain ⟨p, hp, hroot, _⟩ := hextract t ht
        obtain ⟨pkg, hres, hlkF⟩ := hrootF req hreq
        refine ⟨pkg, hres, ?_⟩
        have hlkp : lookupA p.1 (finalReqs reqs0 flat) = some p.2 :=
          lookupA_of_mem_nodup hreqsFnd hp
        have hname : req.name = p.1 := by
          rw [hn, hroot]
          exact hnamedF p hp
        rw [hname] at hlkF
        rw [hlkp] at hlkF
        have hpv : p.2 = pkg := Option.some.inj hlkF
        rw [hroot, ← hpv]
        rfl
      · intro t ht hforall
        obtain ⟨p, hp, hroot, _⟩ := hextract t ht
        have hnm : t.root.name = p.1 := by
          rw [hroot]
          exact hnamedF p hp
        have hinH : (p.1, p.2) ∈ hoistedMap reqs0 flat := hFinH p hp
        have hnot0 : p.1 ∉ reqs0.map Prod.fst := by
          intro hc
          obtain ⟨q, hq, hqe⟩ := List.mem_map.mp hc
          obtain ⟨req, hreq, hrn⟩ := hkeys0 q hq
          refine hforall req hreq ?_
          rw [hrn, hqe, hnm]
        have hlkH : lookupA p.1 (hoistedMap reqs0 flat) = some p.2 :=
          lookupA_of_mem_nodup hhoistnd hinH
        have hlk0 : lookupA p.1 (hoistedMap reqs0 flat) =
            lookupA p.1 (hoistFold flat) := by
          unfold hoistedMap
          exact lookupA_foldl_insertA_not_mem hnot0
        rw [hlk0] at hlkH
        have hin0 : (p.1, p.2) ∈ hoistFold flat := lookupA_mem hlkH
        obtain ⟨hmemflat, hnameflat, hmax⟩ := hh0ent (p.1, p.2) hin0
        constructor
        · refine ⟨p.2, hReachflat p.2 hmemflat, ?_, ?_⟩
          · rw [hnm]
            exact hnameflat
          · rw [hroot]
            rfl
        · intro w hRw hwname
          have hwflat : w ∈ flat := hflatReach w hRw
          have hres := hmax w hwflat (by rw [hwname]; exact hnm)
          rw [hroot]
          exact hres
      · refine ⟨excludePairs reqs0 flat, ?_, ?_⟩
        · intro t ht
          obtain ⟨p, hp, hroot, _⟩ := hextract t ht
          have hinH := hFinH p hp
          have hnm : t.root.name = p.1 := by
            rw [hroot]
            exact hnamedF p hp
          unfold excludePairs
          rw [hnm, hroot]
          exact List.mem_map_of_mem (fun q => (q.1, q.2.version)) hinH
        · intro t ht
          obtain ⟨p, hp, hroot, hgood⟩ := hextract t ht
          exact ⟨p.2, hroot, hgood⟩

/-- Witness for C4: the conclusions hold concretely for the cyclic two-package
graph with root request A, whose forest is the two childless trees A and B. -/
theorem c4_hoisting_witness :
    (cycleTrees.map (fun t => t.root.name)).Nodup ∧
    (∀ t ∈ cycleTrees, ∀ req ∈ [reqCycA], req.name = t.root.name →
      ∃ pkg, resolveReq gCycle req = some pkg ∧ t.root.version = pkg.version) ∧
    (∀ t ∈ cycleTrees, (∀ req ∈ [reqCycA], req.name ≠ t.root.name) →
      (∃ w : VersionedSubpackage, Reach gCycle [reqCycA] w ∧
        w.package.name = t.root.name ∧ w.version = t.root.version) ∧
      (∀ w : VersionedSubpackage, Reach gCycle [reqCycA] w →
        w.package.name = t.root.name → t.root.version.lt w.version = false)) ∧
    (∃ excl : List (String × Version),
      (∀ t ∈ cycleTrees, (t.root.name, t.root.version) ∈ excl) ∧
      (∀ t ∈ cycleTrees, ∃ pkg : VersionedSubpackage, t.root = mkDependency pkg ∧
        GoodTree gCycle excl pkg t)) :=
  c4_hoisting gCycle "linux" "x64" [reqCycA] cycleTrees (by decide) (by decide)
    (by rfl)

end Cotton
